import Mathlib

/-!
# Concurrent-Database: the store of `db.c` and the client registry of `server.c`

A shallow embedding of `src/db.c` and of the client list of `src/server.c`.

* A C string buffer is a list of bytes (`CString`); the string it holds ends at the first
  NUL byte or at the end of the list (`cstr`).
* The tree below the static sentinel `head` is owned link by link, so a nullable `node_t *`
  is a `Tree`: `null`, or a node with its two owned subtrees.
* A pointer to a node that is reachable from `&head` is the path of links that leads to it
  (`Ptr`); `&head` itself is the empty path.  Reads through a pointer are `Tree.get`, writes
  are `Tree.set_lchild`, `Tree.set_rchild`, `Tree.set_strings`.
* Every store function returns, next to its C result, the sequence of lock events it
  performs; an event names its node by address.
* What the code takes from its environment is a parameter: the outcome of each allocation
  (`Alloc`), whether `fopen` succeeds, the contents of the files an `f` command reads.
* A `client_t` is named by its address; the shared state of `server.c` is the record
  `Server`, and each function that runs under `server_mutex` is one function on it.
-/

namespace ConcurrentDB

/-! ## C strings -/

/-- Contents of a `char` buffer: bytes, the string ends at the first NUL or at the end. -/
abbrev CString := List Nat

/-- ASCII bytes of a literal. -/
def lit (s : String) : CString := s.data.map Char.toNat

/-- The string held in a buffer: the bytes before the first NUL. -/
def cstr (s : CString) : CString := s.takeWhile (fun b => b != 0)

/-- Libc `strlen`. -/
def strlen (s : CString) : Nat := (cstr s).length

/-- Byte-wise comparison of two NUL-free byte sequences, as `strcmp` does it: the
difference of the first pair of bytes that differ, a missing byte counting as NUL. -/
def strcmp_bytes : List Nat → List Nat → Int
  | [], [] => 0
  | [], b :: _ => 0 - (b : Int)
  | a :: _, [] => (a : Int)
  | a :: as, b :: bs => if a = b then strcmp_bytes as bs else (a : Int) - (b : Int)

/-- Libc `strcmp`. -/
def strcmp (a b : CString) : Int := strcmp_bytes (cstr a) (cstr b)

/-- The call `snprintf(dst, n, "%s", src)`: the new contents of `dst` and the return value.
At most `n - 1` bytes of the string are written; with `n = 0` nothing is written. -/
def snprintf (dst : CString) (n : Nat) (src : CString) : CString × Int :=
  (if n = 0 then dst else (cstr src).take (n - 1), (strlen src : Int))

/-- The constant `MAXLEN`. -/
def MAXLEN : Nat := 256

/-! ## Nodes, pointers, events -/

/-- A nullable `node_t *` together with everything it owns. -/
inductive Tree where
  | null : Tree
  | node (name value : CString) (lchild rchild : Tree) : Tree
  deriving DecidableEq, Repr

/-- One of the two links of a node. -/
inductive Dir where
  | L : Dir
  | R : Dir
  deriving DecidableEq, Repr

/-- Address of a node reachable from `&head`: the links followed from the sentinel. -/
abbrev Ptr := List Dir

/-- Calls on the reader/writer lock of a node, and the destruction of a node. -/
inductive Event where
  | rdlock (node : Ptr) : Event
  | wrlock (node : Ptr) : Event
  | unlock (node : Ptr) : Event
  | destroy (node : Ptr) : Event
  deriving DecidableEq, Repr

/-- Outcome of the `i`-th allocation (`malloc`, `realloc`) of one call: `true` when it
succeeds. -/
abbrev Alloc := Nat → Bool

/-- Every allocation succeeds. -/
def Alloc.ok : Alloc := fun _ => true

namespace Tree

/-- Field `name` of the node a pointer value refers to. -/
def name : Tree → CString
  | null => []
  | node n _ _ _ => n

/-- Field `value`. -/
def value : Tree → CString
  | null => []
  | node _ v _ _ => v

/-- Field `lchild`. -/
def lchild : Tree → Tree
  | null => null
  | node _ _ l _ => l

/-- Field `rchild`. -/
def rchild : Tree → Tree
  | null => null
  | node _ _ _ r => r

/-- Follow one link. -/
def child (t : Tree) : Dir → Tree
  | Dir.L => t.lchild
  | Dir.R => t.rchild

/-- Dereference: the node at address `p` in the tree whose sentinel is `t`. -/
def get (t : Tree) : Ptr → Tree
  | [] => t
  | d :: p => (t.child d).get p

/-- Rewrite the node at address `p` by `f`, leaving everything else in place. -/
def modify (f : Tree → Tree) : Tree → Ptr → Tree
  | t, [] => f t
  | null, _ :: _ => null
  | node n v l r, Dir.L :: p => node n v (modify f l p) r
  | node n v l r, Dir.R :: p => node n v l (modify f r p)

/-- The assignment `p->lchild = x`. -/
def set_lchild (t : Tree) (p : Ptr) (x : Tree) : Tree :=
  modify (fun s => match s with
    | null => null
    | node n v _ r => node n v x r) t p

/-- The assignment `p->rchild = x`. -/
def set_rchild (t : Tree) (p : Ptr) (x : Tree) : Tree :=
  modify (fun s => match s with
    | null => null
    | node n v l _ => node n v l x) t p

/-- The assignment `*slot = x` for the link `d` of the node at `p`. -/
def set_child (t : Tree) (p : Ptr) (d : Dir) (x : Tree) : Tree :=
  match d with
  | Dir.L => t.set_lchild p x
  | Dir.R => t.set_rchild p x

/-- Overwrite the `name` and `value` buffers of the node at `p`. -/
def set_strings (t : Tree) (p : Ptr) (n v : CString) : Tree :=
  modify (fun s => match s with
    | null => null
    | node _ _ l r => node n v l r) t p

end Tree

/-- The call `lock_node(node, lock_type)`: a read lock for type 0, a write lock otherwise. -/
def lock_node (node : Ptr) (lock_type : Nat) : Event :=
  if lock_type = 0 then Event.rdlock node else Event.wrlock node

/-- The function `node_constructor`: the new node, or `null` (the C result 0) when a
string is longer than `MAXLEN` or an allocation fails.  `mem 0`, `mem 1`, `mem 2` are the
outcomes of the three `malloc` calls in source order. -/
def node_constructor (arg_name arg_value : CString) (arg_left arg_right : Tree)
    (mem : Alloc) : Tree :=
  let name_len := strlen arg_name
  let val_len := strlen arg_value
  if name_len > MAXLEN ∨ val_len > MAXLEN then Tree.null
  else if mem 0 = false then Tree.null
  else if mem 1 = false then Tree.null
  else if mem 2 = false then Tree.null
  else
    let n := snprintf [] MAXLEN arg_name
    if n.2 < 0 then Tree.null
    else
      let v := snprintf [] MAXLEN arg_value
      if v.2 < 0 then Tree.null
      else Tree.node n.1 v.1 arg_left arg_right

/-- What `search` hands back: the target (`none` for the C result 0), the pointer stored
through `parentpp`, and the lock events of the descent. -/
structure SearchResult where
  result : Option Ptr
  parent : Ptr
  events : List Event
  deriving DecidableEq, Repr

/-- The function `search`, called on the node `parent` whose address is `addr`.
`parent` is never `NULL` in the source (the callers pass `&head`, the recursion passes a
`next` that was tested), and `parentpp` is never `NULL` either. -/
def search (name : CString) (parent : Tree) (addr : Ptr) (lock_type : Nat) : SearchResult :=
  match parent with
  | Tree.null => ⟨none, addr, []⟩
  | Tree.node pname _ lchild rchild =>
    if strcmp name pname < 0 then
      match lchild with
      | Tree.null => ⟨none, addr, []⟩
      | Tree.node nname nvalue nl nr =>
        if strcmp name nname = 0 then
          ⟨some (addr ++ [Dir.L]), addr, [lock_node (addr ++ [Dir.L]) lock_type]⟩
        else
          let r := search name (Tree.node nname nvalue nl nr) (addr ++ [Dir.L]) lock_type
          ⟨r.result, r.parent,
            lock_node (addr ++ [Dir.L]) lock_type :: Event.unlock addr :: r.events⟩
    else
      match rchild with
      | Tree.null => ⟨none, addr, []⟩
      | Tree.node nname nvalue nl nr =>
        if strcmp name nname = 0 then
          ⟨some (addr ++ [Dir.R]), addr, [lock_node (addr ++ [Dir.R]) lock_type]⟩
        else
          let r := search name (Tree.node nname nvalue nl nr) (addr ++ [Dir.R]) lock_type
          ⟨r.result, r.parent,
            lock_node (addr ++ [Dir.R]) lock_type :: Event.unlock addr :: r.events⟩

/-- What a store operation leaves behind: its C return value, the tree below the sentinel
afterwards, and the lock events it performed. -/
structure Ret (α : Type) where
  val : α
  head : Tree
  events : List Event

/-- The function `db_query`; `val` is the `result` buffer after the call. -/
def db_query (head : Tree) (name : CString) (result : CString) (len : Nat) : Ret CString :=
  let s := search name head [] 0
  match s.result with
  | none =>
    ⟨(snprintf result len (lit "not found")).1, head,
      lock_node [] 0 :: s.events ++ [Event.unlock s.parent]⟩
  | some target =>
    ⟨(snprintf result len (head.get target).value).1, head,
      lock_node [] 0 :: s.events ++ [Event.unlock target, Event.unlock s.parent]⟩

/-- The function `db_add`. -/
def db_add (head : Tree) (name value : CString) (mem : Alloc) : Ret Int :=
  let s := search name head [] 1
  match s.result with
  | some target =>
    ⟨0, head, lock_node [] 1 :: s.events ++ [Event.unlock target, Event.unlock s.parent]⟩
  | none =>
    let newnode := node_constructor name value Tree.null Tree.null mem
    let head1 :=
      if strcmp name (head.get s.parent).name < 0 then head.set_lchild s.parent newnode
      else head.set_rchild s.parent newnode
    ⟨1, head1, lock_node [] 1 :: s.events ++ [Event.unlock s.parent]⟩

/-- State of the successor walk of `db_remove`: the node `next`, the link `pnext` that
refers to it (owner and side), and the lock events of the walk. -/
structure Walk where
  next : Ptr
  pnext : Ptr × Dir
  events : List Event
  deriving DecidableEq, Repr

/-- The loop `while (next->lchild != 0)` of `db_remove`, entered with `next` (at address
`addr`) locked and `pnext` referring to it. -/
def db_remove_loop (next : Tree) (addr : Ptr) (pnext : Ptr × Dir) : Walk :=
  match next with
  | Tree.null => ⟨addr, pnext, []⟩
  | Tree.node _ _ nextl _ =>
    match nextl with
    | Tree.null => ⟨addr, pnext, []⟩
    | Tree.node ln lv ll lr =>
      let w := db_remove_loop (Tree.node ln lv ll lr) (addr ++ [Dir.L]) (addr, Dir.L)
      ⟨w.next, w.pnext,
        lock_node (addr ++ [Dir.L]) 1 :: Event.unlock addr :: w.events⟩

/-- The function `db_remove`.  `mem 0` and `mem 1` are the outcomes of the two `realloc`
calls of the two-children case; when one fails the following `snprintf` writes through a
null pointer and the call does not return (`none`). -/
def db_remove (head : Tree) (name : CString) (mem : Alloc) : Option (Ret Int) :=
  let s := search name head [] 1
  match s.result with
  | none => some ⟨0, head, lock_node [] 1 :: s.events ++ [Event.unlock s.parent]⟩
  | some dnode =>
    let pre := lock_node [] 1 :: s.events
    if (head.get dnode).rchild = Tree.null then
      let head1 :=
        if strcmp (head.get dnode).name (head.get s.parent).name < 0 then
          head.set_lchild s.parent (head.get dnode).lchild
        else head.set_rchild s.parent (head.get dnode).lchild
      some ⟨1, head1,
        pre ++ [Event.unlock dnode, Event.destroy dnode, Event.unlock s.parent]⟩
    else if (head.get dnode).lchild = Tree.null then
      let head1 :=
        if strcmp (head.get dnode).name (head.get s.parent).name < 0 then
          head.set_lchild s.parent (head.get dnode).rchild
        else head.set_rchild s.parent (head.get dnode).rchild
      some ⟨1, head1,
        pre ++ [Event.unlock dnode, Event.destroy dnode, Event.unlock s.parent]⟩
    else
      let w := db_remove_loop (head.get dnode).rchild (dnode ++ [Dir.R]) (dnode, Dir.R)
      if mem 0 = false ∨ mem 1 = false then none
      else
        let n := (snprintf (head.get dnode).name MAXLEN (head.get w.next).name).1
        let v := (snprintf (head.get dnode).value MAXLEN (head.get w.next).value).1
        let head1 := head.set_strings dnode n v
        let head2 := head1.set_child w.pnext.1 w.pnext.2 (head1.get w.next).rchild
        some ⟨1, head2,
          pre ++ lock_node (dnode ++ [Dir.R]) 1 :: w.events ++
            [Event.unlock w.next, Event.destroy w.next, Event.unlock dnode,
              Event.unlock s.parent]⟩

/-- The static initialiser of `head`: empty name, empty value, no children. -/
def head_init : Tree := Tree.node [] [] Tree.null Tree.null

/-! ## Printing -/

/-- The function `print_spaces`: what it writes. -/
def print_spaces (lvl : Nat) : CString := List.replicate lvl 32

/-- The function `db_print_recurs` on the node `node` at address `addr`: the text written
to `out` and the lock events.  `node == &head` is `addr = []`. -/
def db_print_recurs (node : Tree) (addr : Ptr) (lvl : Nat) : CString × List Event :=
  match node with
  | Tree.null => (print_spaces lvl ++ lit "(null)\n", [])
  | Tree.node name value lchild rchild =>
    let line :=
      if addr = [] then lit "(root)\n" else cstr name ++ lit " " ++ cstr value ++ lit "\n"
    let lock_l := if lchild ≠ Tree.null then [lock_node (addr ++ [Dir.L]) 0] else []
    let lock_r := if rchild ≠ Tree.null then [lock_node (addr ++ [Dir.R]) 0] else []
    let l := db_print_recurs lchild (addr ++ [Dir.L]) (lvl + 1)
    let r := db_print_recurs rchild (addr ++ [Dir.R]) (lvl + 1)
    let unlock_l := if lchild ≠ Tree.null then [Event.unlock (addr ++ [Dir.L])] else []
    let unlock_r := if rchild ≠ Tree.null then [Event.unlock (addr ++ [Dir.R])] else []
    (print_spaces lvl ++ line ++ l.1 ++ r.1,
      lock_l ++ lock_r ++ l.2 ++ r.2 ++ unlock_l ++ unlock_r)

/-- Libc `isspace` in the C locale. -/
def isspace (c : Nat) : Bool := c = 32 || (9 ≤ c && c ≤ 13)

/-- What `db_print` leaves behind: its return value, the stream it wrote to (`none` for
`stdout`, otherwise the file name), the text written and the lock events. -/
structure PrintResult where
  val : Int
  sink : Option CString
  text : CString
  events : List Event
  deriving DecidableEq, Repr

/-- The function `db_print`; `filename = none` is the C argument `NULL`, `fopen_ok` is
whether `fopen` succeeds. -/
def db_print (head : Tree) (filename : Option CString) (fopen_ok : Bool) : PrintResult :=
  match filename with
  | none =>
    let p := db_print_recurs head [] 0
    ⟨0, none, p.1, lock_node [] 0 :: p.2 ++ [Event.unlock []]⟩
  | some filename =>
    let filename := (cstr filename).dropWhile isspace
    if filename = [] then
      let p := db_print_recurs head [] 0
      ⟨0, none, p.1, lock_node [] 0 :: p.2 ++ [Event.unlock []]⟩
    else if fopen_ok = false then
      ⟨-1, none, [], [lock_node [] 0, Event.unlock []]⟩
    else
      let p := db_print_recurs head [] 0
      ⟨0, some filename, p.1, lock_node [] 0 :: p.2 ++ [Event.unlock []]⟩

/-! ## The command interpreter -/

/-- One `%255s` conversion of `sscanf` on the rest of the input: skip white space, then
take at most `width` bytes that are not white space.  `none` when the input ends before a
byte is found; otherwise the token and the unread input. -/
def scan_s (width : Nat) (input : CString) : Option (CString × CString) :=
  let rest := input.dropWhile isspace
  let tok := (rest.takeWhile (fun c => !isspace c)).take width
  if tok = [] then none else some (tok, rest.drop tok.length)

/-- The call `sscanf(input, "%255s", name)`: the return value and `name`. -/
def sscanf_s (input : CString) : Int × CString :=
  match scan_s 255 (cstr input) with
  | none => (-1, [])
  | some (name, _) => (1, name)

/-- The call `sscanf(input, "%255s %255s", name, value)`: the return value, `name` and
`value`. -/
def sscanf_s_s (input : CString) : Int × CString × CString :=
  match scan_s 255 (cstr input) with
  | none => (-1, [], [])
  | some (name, rest) =>
    match scan_s 255 rest with
    | none => (1, name, [])
    | some (value, _) => (2, name, value)

/-- What the interpreter cannot see in its arguments: for a path, the buffers that the
successive `fgets` calls deliver (`none` when `fopen` fails), and the allocation outcomes
met by the store operation of a command. -/
structure Env where
  fopen : CString → Option (List CString)
  mem : Alloc

/-- The function `interpret_command`: the `response` buffer and the tree afterwards (the
lock events of the store operation are those of `db_query`, `db_add`, `db_remove` and are not
repeated here).  `fuel` bounds the nesting of `f` commands; the result is `none` when the
nesting is deeper or when `db_remove` does not return. -/
def interpret_command (fuel : Nat) (env : Env) (head : Tree) (command response : CString)
    (len : Nat) : Option (CString × Tree) :=
  if strlen command ≤ 1 then
    some ((snprintf response len (lit "ill-formed command")).1, head)
  else
    let c := (cstr command).headD 0
    let args := (cstr command).tail
    if c = 113 then
      let sc := sscanf_s args
      if sc.1 < 1 then some ((snprintf response len (lit "ill-formed command")).1, head)
      else
        let q := db_query head sc.2 response len
        if strlen q.val = 0 then some ((snprintf q.val len (lit "not found")).1, head)
        else some (q.val, head)
    else if c = 97 then
      let sc := sscanf_s_s args
      if sc.1 < 2 then some ((snprintf response len (lit "ill-formed command")).1, head)
      else
        let a := db_add head sc.2.1 sc.2.2 env.mem
        if a.val ≠ 0 then some ((snprintf response len (lit "added")).1, a.head)
        else some ((snprintf response len (lit "already in database")).1, a.head)
    else if c = 100 then
      let sc := sscanf_s args
      if sc.1 < 1 then some ((snprintf response len (lit "ill-formed command")).1, head)
      else
        match db_remove head sc.2 env.mem with
        | none => none
        | some d =>
          if d.val ≠ 0 then some ((snprintf response len (lit "removed")).1, d.head)
          else some ((snprintf response len (lit "not in database")).1, d.head)
    else if c = 102 then
      let sc := sscanf_s args
      if sc.1 < 1 then some ((snprintf response len (lit "ill-formed command")).1, head)
      else
        match env.fopen sc.2 with
        | none => some ((snprintf response len (lit "bad file name")).1, head)
        | some lines =>
          match fuel with
          | 0 => none
          | fuel + 1 =>
            match lines.foldlM
                (fun st ibuf => interpret_command fuel env st.2 ibuf st.1 len)
                (response, head) with
            | none => none
            | some st => some ((snprintf st.1 len (lit "file processed")).1, st.2)
    else some ((snprintf response len (lit "ill-formed command")).1, head)


/-! ## The supervisor and the client registry (`server.c`) -/

/-- The list fields of a `client_t`; a client is named by its address, `none` is `NULL`.
The fields `thread` and `cxstr` play no part in the registry. -/
structure client_t where
  prev : Option Nat
  next : Option Nat
  deriving DecidableEq, Repr

/-- The shared state of `server.c`: the two counters of `server_struct`, the global
`thread_list_head`, and the `client_t` record at each address. -/
structure Server where
  num_client_threads : Int
  server_stopped : Int
  thread_list_head : Option Nat
  client : Nat → client_t

/-- The static initialisers: no client thread, not stopped, an empty list. -/
def server_init : Server := ⟨0, 0, none, fun _ => ⟨none, none⟩⟩

/-- The function `client_constructor`, `new_client` being the address `malloc` returned:
both links of the new record are set to `NULL` and the thread count is incremented (the
thread it creates starts at `run_client`). -/
def client_constructor (s : Server) (new_client : Nat) : Server :=
  { s with
    client := Function.update s.client new_client ⟨none, none⟩
    num_client_threads := s.num_client_threads + 1 }

/-- The loop `while (current_client->next != NULL)` of `run_client`, started at
`current_client`; `fuel` bounds the number of records visited. -/
def last_client (client : Nat → client_t) : Nat → Nat → Option Nat
  | 0, _ => none
  | fuel + 1, current_client =>
    match (client current_client).next with
    | none => some current_client
    | some nx => last_client client fuel nx

/-- The admission part of `run_client`, up to the release of the two mutexes: when the
server is stopped the thread count is decremented and the thread exits; otherwise the
client is appended to the list.  The result is `none` when `fuel` records do not reach the
end of the list. -/
def run_client (s : Server) (new_client : Nat) (fuel : Nat) : Option Server :=
  if s.server_stopped = 1 then
    some { s with num_client_threads := s.num_client_threads - 1 }
  else
    match s.thread_list_head with
    | none => some { s with thread_list_head := some new_client }
    | some head =>
      match last_client s.client fuel head with
      | none => none
      | some current_client =>
        let client1 := Function.update s.client current_client
          { s.client current_client with next := some new_client }
        let client2 := Function.update client1 new_client
          { client1 new_client with prev := some current_client }
        some { s with client := client2 }

/-- The function `thread_cleanup`: unlink the client, then decrement the thread count.  The
result is `none` when `new_client->prev` is dereferenced while it is `NULL`. -/
def thread_cleanup (s : Server) (new_client : Nat) : Option Server :=
  if s.thread_list_head = some new_client then
    match (s.client new_client).next with
    | some nx =>
      some { s with
        thread_list_head := some nx
        client := Function.update s.client nx { s.client nx with prev := none }
        num_client_threads := s.num_client_threads - 1 }
    | none =>
      some { s with
        thread_list_head := none
        num_client_threads := s.num_client_threads - 1 }
  else
    match (s.client new_client).prev with
    | none => none
    | some prev_client =>
      let client1 := Function.update s.client prev_client
        { s.client prev_client with next := (s.client new_client).next }
      match (client1 prev_client).next with
      | none =>
        some { s with client := client1, num_client_threads := s.num_client_threads - 1 }
      | some nx =>
        some { s with
          client := Function.update client1 nx { client1 nx with prev := some prev_client }
          num_client_threads := s.num_client_threads - 1 }

/-! ## Auxiliary definitions: routing, ordered bindings, call sequences -/

/-- Which link `search` follows at a node named `n`. -/
def route (k n : CString) : Dir := if strcmp k n < 0 then Dir.L else Dir.R

/-- Replace one child of a node. -/
def Tree.setc : Tree → Dir → Tree → Tree
  | Tree.null, _, _ => Tree.null
  | Tree.node n v _ r, Dir.L, x => Tree.node n v x r
  | Tree.node n v l _, Dir.R, x => Tree.node n v l x

/-- Prefix the address in an event. -/
def Event.shift (a : Ptr) : Event → Event
  | Event.rdlock p => Event.rdlock (a ++ p)
  | Event.wrlock p => Event.wrlock (a ++ p)
  | Event.unlock p => Event.unlock (a ++ p)
  | Event.destroy p => Event.destroy (a ++ p)

/-- Prefix every address in a search result. -/
def SearchResult.shift (a : Ptr) (s : SearchResult) : SearchResult :=
  ⟨s.result.map (fun p => a ++ p), a ++ s.parent, s.events.map (Event.shift a)⟩

/-- Lookup by descent, as `search` routes: the value of the node named `k`. -/
def bst_find (k : CString) : Tree → Option CString
  | Tree.null => none
  | Tree.node n v l r =>
    if strcmp k n = 0 then some v
    else if strcmp k n < 0 then bst_find k l else bst_find k r

/-- Descent as `search` routes, putting `x` in the empty link the descent ends at. -/
def bst_insert (k : CString) (x : Tree) : Tree → Tree
  | Tree.null => x
  | Tree.node n v l r =>
    if strcmp k n = 0 then Tree.node n v l r
    else if strcmp k n < 0 then Tree.node n v (bst_insert k x l) r
    else Tree.node n v l (bst_insert k x r)

/-- The leftmost node of a subtree. -/
def minNode : Tree → Tree
  | Tree.null => Tree.null
  | Tree.node n v Tree.null r => Tree.node n v Tree.null r
  | Tree.node _ _ (Tree.node ln lv ll lr) _ => minNode (Tree.node ln lv ll lr)

/-- Address of the leftmost node of a subtree, relative to its root. -/
def minPath : Tree → Ptr
  | Tree.null => []
  | Tree.node _ _ Tree.null _ => []
  | Tree.node _ _ (Tree.node ln lv ll lr) _ => Dir.L :: minPath (Tree.node ln lv ll lr)

/-- A subtree with its leftmost node replaced by that node's right child. -/
def dropMin : Tree → Tree
  | Tree.null => Tree.null
  | Tree.node _ _ Tree.null r => r
  | Tree.node n v (Tree.node ln lv ll lr) r => Tree.node n v (dropMin (Tree.node ln lv ll lr)) r

/-- Removal of the root of a subtree, as the three cases of `db_remove` do it. -/
def del_root (mem : Alloc) : Tree → Option Tree
  | Tree.null => some Tree.null
  | Tree.node n v l r =>
    if r = Tree.null then some l
    else if l = Tree.null then some r
    else if mem 0 = false ∨ mem 1 = false then none
    else some (Tree.node (snprintf n MAXLEN (minNode r).name).1
      (snprintf v MAXLEN (minNode r).value).1 l (dropMin r))

/-- Descent as `search` routes, removing the node named `k`. -/
def bst_delete (k : CString) (mem : Alloc) : Tree → Option Tree
  | Tree.null => some Tree.null
  | Tree.node n v l r =>
    if strcmp k n = 0 then del_root mem (Tree.node n v l r)
    else if strcmp k n < 0 then (bst_delete k mem l).map (fun l1 => Tree.node n v l1 r)
    else (bst_delete k mem r).map (fun r1 => Tree.node n v l r1)

/-- The bindings of a subtree, in-order. -/
def Tree.kvs : Tree → List (CString × CString)
  | Tree.null => []
  | Tree.node n v l r => Tree.kvs l ++ (n, v) :: Tree.kvs r

/-- Strict `strcmp` order on the names of two bindings. -/
def kv_lt (a b : CString × CString) : Prop := strcmp a.1 b.1 < 0

/-- A string that `node_constructor` and `snprintf` copy unchanged: no NUL byte, at most
255 bytes. -/
def ok (s : CString) : Prop := 0 ∉ s ∧ s.length ≤ 255

instance ok_decidable (s : CString) : Decidable (ok s) :=
  inferInstanceAs (Decidable (0 ∉ s ∧ s.length ≤ 255))

/-- Every binding of the subtree consists of two unabridged strings. -/
def Tree.allOk (t : Tree) : Prop := ∀ a ∈ t.kvs, ok a.1 ∧ ok a.2

/-- The store invariant: an untouched sentinel with every node to its right, bindings `kv`
in strictly increasing order of name, all strings unabridged. -/
def Inv (h : Tree) (kv : List (CString × CString)) : Prop :=
  ∃ r, h = Tree.node [] [] Tree.null r ∧ r.kvs = kv ∧ kv.Pairwise kv_lt
    ∧ ∀ a ∈ kv, ok a.1 ∧ ok a.2

/-- One call of the store interface, with what its environment supplies: the `result`
buffer and its size for a query, the allocation outcomes for an update. -/
inductive Call where
  | query (name result : CString) (len : Nat) : Call
  | add (name value : CString) (mem : Alloc) : Call
  | remove (name : CString) (mem : Alloc) : Call

/-- What a call hands back: the text in the result buffer, or the integer returned. -/
inductive Answer where
  | text (s : CString) : Answer
  | code (n : Int) : Answer
  deriving DecidableEq, Repr

/-- Perform one call on the store; `none` when the call does not return. -/
def call (head : Tree) : Call → Option (Answer × Tree)
  | Call.query name result len =>
    some (Answer.text (db_query head name result len).val, (db_query head name result len).head)
  | Call.add name value mem =>
    some (Answer.code (db_add head name value mem).val, (db_add head name value mem).head)
  | Call.remove name mem =>
    (db_remove head name mem).map (fun d => (Answer.code d.val, d.head))

/-- Perform a sequence of calls, collecting the answers. -/
def run (head : Tree) : List Call → Option (List Answer × Tree)
  | [] => some ([], head)
  | c :: cs =>
    match call head c with
    | none => none
    | some (a, h1) =>
      match run h1 cs with
      | none => none
      | some (as, h2) => some (a :: as, h2)

/-- A finite map from names to values. -/
abbrev FMap := CString → Option CString

/-- One call as a finite map answers it. -/
def FMap.step (m : FMap) : Call → Answer × FMap
  | Call.query name _ _ => (Answer.text ((m name).getD (lit "not found")), m)
  | Call.add name value _ =>
    if m name = none then (Answer.code 1, fun x => if x = name then some value else m x)
    else (Answer.code 0, m)
  | Call.remove name _ =>
    if m name = none then (Answer.code 0, m)
    else (Answer.code 1, fun x => if x = name then none else m x)

/-- A sequence of calls as a finite map answers it. -/
def FMap.run (m : FMap) : List Call → List Answer × FMap
  | [] => ([], m)
  | c :: cs => ((m.step c).1 :: ((m.step c).2.run cs).1, ((m.step c).2.run cs).2)

/-- The strings of the call have no NUL byte and at most 255 bytes. -/
def Call.sized : Call → Prop
  | Call.query name _ _ => ok name
  | Call.add name value _ => ok name ∧ ok value
  | Call.remove name _ => ok name

/-- The allocations of the call succeed. -/
def Call.allocated : Call → Prop
  | Call.query _ _ _ => True
  | Call.add _ _ mem => mem 0 = true ∧ mem 1 = true ∧ mem 2 = true
  | Call.remove _ mem => mem 0 = true ∧ mem 1 = true

/-- The names of a subtree, in-order. -/
def Tree.inorder : Tree → List CString
  | Tree.null => []
  | Tree.node n _ l r => Tree.inorder l ++ n :: Tree.inorder r

/-- The names of the nodes below the sentinel, in-order. -/
def names_below (head : Tree) : List CString := head.lchild.inorder ++ head.rchild.inorder

/-- Search-tree order, node by node: smaller names to the left, greater to the right. -/
def Tree.isBST : Tree → Prop
  | Tree.null => True
  | Tree.node n _ l r =>
    (∀ a ∈ l.inorder, strcmp a n < 0) ∧ (∀ b ∈ r.inorder, strcmp n b < 0)
      ∧ Tree.isBST l ∧ Tree.isBST r

/-- The command sequence of scenario S2: seven additions, then the removal of `m`. -/
def S2 : List Call :=
  [Call.add (lit "m") (lit "1") Alloc.ok, Call.add (lit "c") (lit "2") Alloc.ok,
   Call.add (lit "t") (lit "3") Alloc.ok, Call.add (lit "a") (lit "4") Alloc.ok,
   Call.add (lit "f") (lit "5") Alloc.ok, Call.add (lit "p") (lit "6") Alloc.ok,
   Call.add (lit "z") (lit "7") Alloc.ok, Call.remove (lit "m") Alloc.ok]

/-- The node locks held after one more event, most recent first. -/
def Event.apply (held : List Ptr) : Event → List Ptr
  | Event.rdlock p => p :: held
  | Event.wrlock p => p :: held
  | Event.unlock p => held.erase p
  | Event.destroy _ => held

/-- The node locks held after a sequence of events, starting from `held`. -/
def held_after (held : List Ptr) (es : List Event) : List Ptr := es.foldl Event.apply held

/-- At most two locks are held, and two held locks are those of a node and its child, the
child's taken last. -/
def coupled_locks (held : List Ptr) : Prop :=
  held.length ≤ 2 ∧ ∀ p q, held = [q, p] → ∃ d : Dir, q = p ++ [d]

/-- Every step of the sequence keeps the locks coupled, and a lock is released only while the
lock of a child of its node, taken after it, is held as well. -/
def Coupled : List Ptr → List Event → Prop
  | _, [] => True
  | held, e :: es =>
    (∀ p, e = Event.unlock p → ∃ d : Dir, held = [p ++ [d], p])
      ∧ coupled_locks (Event.apply held e) ∧ Coupled (Event.apply held e) es

/-- Only white space. -/
def blank (s : CString) : Prop := ∀ b ∈ s, isspace b = true

/-- A run of token bytes: no white space, no NUL. -/
def solid (s : CString) : Prop := ∀ b ∈ s, isspace b = false ∧ b ≠ 0

/-- Nothing follows, or white space does: where a white-space-delimited token ends. -/
def token_end (s : CString) : Prop := s = [] ∨ ∃ b t, s = b :: t ∧ isspace b = true

instance blank_decidable (s : CString) : Decidable (blank s) :=
  inferInstanceAs (Decidable (∀ b ∈ s, isspace b = true))

instance solid_decidable (s : CString) : Decidable (solid s) :=
  inferInstanceAs (Decidable (∀ b ∈ s, isspace b = false ∧ b ≠ 0))

/-- An environment without files in which every allocation succeeds. -/
def env0 : Env := ⟨fun _ => none, Alloc.ok⟩

/-- The commands of the amended C9, read on the command string `s = cstr command`: at most
one byte; or a first byte that is none of `q`, `a`, `d`, `f`; or a `q`, `d` or `f` with
nothing but white space behind it; or an `a` with nothing but white space behind it, or with
a single token of at most 255 bytes behind it. -/
def malformed (command : CString) : Prop :=
  strlen command ≤ 1
  ∨ ((cstr command).headD 0 ≠ 113 ∧ (cstr command).headD 0 ≠ 97
      ∧ (cstr command).headD 0 ≠ 100 ∧ (cstr command).headD 0 ≠ 102)
  ∨ (((cstr command).headD 0 = 113 ∨ (cstr command).headD 0 = 100
      ∨ (cstr command).headD 0 = 102) ∧ blank (cstr command).tail)
  ∨ ((cstr command).headD 0 = 97
      ∧ (blank (cstr command).tail
        ∨ ∃ sp tok sp2, (cstr command).tail = sp ++ tok ++ sp2 ∧ blank sp ∧ solid tok
            ∧ tok ≠ [] ∧ tok.length ≤ 255 ∧ blank sp2))

/-- The tree of scenario S2 before the removal: `m` below the sentinel, `c` and `t` below
`m`, then `a`, `f` and `p`, `z`. -/
def S2_tree : Tree :=
  Tree.node [] [] Tree.null
    (Tree.node (lit "m") (lit "1")
      (Tree.node (lit "c") (lit "2")
        (Tree.node (lit "a") (lit "4") Tree.null Tree.null)
        (Tree.node (lit "f") (lit "5") Tree.null Tree.null))
      (Tree.node (lit "t") (lit "3")
        (Tree.node (lit "p") (lit "6") Tree.null Tree.null)
        (Tree.node (lit "z") (lit "7") Tree.null Tree.null)))

/-- Follow the node locks held through a sequence of events, most recent first; `none` as
soon as an event breaks the discipline: the release of a lock that is not held, or the
destruction of a node whose lock is held. -/
def track : List Ptr → List Event → Option (List Ptr)
  | held, [] => some held
  | held, Event.rdlock p :: es => track (p :: held) es
  | held, Event.wrlock p :: es => track (p :: held) es
  | held, Event.unlock p :: es => if p ∈ held then track (held.erase p) es else none
  | held, Event.destroy p :: es => if p ∈ held then none else track held es

/-- The locks `search` leaves held: the parent's, and above it the target's when there is
one. -/
def search_held (s : SearchResult) (held : List Ptr) : List Ptr :=
  match s.result with
  | none => s.parent :: held
  | some t => t :: s.parent :: held

/-- The sentinel's fields are the same after a call as before it: name and value as before,
each link null exactly when it was, and the node it led to not destroyed, so that it still
leads to that node. -/
def sentinel_kept (h h1 : Tree) (es : List Event) : Prop :=
  h1.name = h.name ∧ h1.value = h.value
    ∧ ∀ e : Dir, (h1.child e = Tree.null ↔ h.child e = Tree.null) ∧ Event.destroy [e] ∉ es

/-- The records reached from the pointer `p` through `next` links are those of `L`, in this
order, the last one having no successor. -/
def chain (client : Nat → client_t) : Option Nat → List Nat → Prop
  | p, [] => p = none
  | p, a :: L => p = some a ∧ chain client (client a).next L

/-- The list is well-formed as a doubly-linked list: the head's `prev` is null and, for every
record `x` with a successor, `x.next.prev` is `x`. -/
def well_linked (s : Server) (L : List Nat) : Prop :=
  (∀ h, s.thread_list_head = some h → (s.client h).prev = none)
    ∧ ∀ x ∈ L, ∀ y, (s.client x).next = some y → (s.client y).prev = some x

/-- A doubly-linked segment: `chain` from `p`, the first record's `prev` being `q` and every
later record's `prev` its predecessor. -/
def dchain (client : Nat → client_t) : Option Nat → Option Nat → List Nat → Prop
  | _, p, [] => p = none
  | q, p, a :: L => p = some a ∧ (client a).prev = q ∧ dchain client (some a) (client a).next L

/-- The records after `thread_cleanup` has unlinked the client `c`, which is not the head and
whose predecessor is `pc`. -/
def unlinked (client : Nat → client_t) (c pc : Nat) : Nat → client_t :=
  match (client c).next with
  | none => Function.update client pc { client pc with next := none }
  | some nx =>
    Function.update (Function.update client pc { client pc with next := some nx }) nx
      { (Function.update client pc { client pc with next := some nx }) nx with prev := some pc }

/-- A registry with the two clients `1` and `2`, enrolled in this order. -/
def two_clients : Server :=
  ⟨2, 0, some 1, fun x =>
    if x = 1 then ⟨none, some 2⟩ else if x = 2 then ⟨some 1, none⟩ else ⟨none, none⟩⟩

/-- The supervisor and registry state together with the client threads in flight: `started`
are the clients made by `client_constructor` whose `run_client` has not yet reached the
admission test, `serving` those that were enrolled and have not yet run `thread_cleanup`. -/
structure World where
  server : Server
  started : List Nat
  serving : List Nat

/-- The steps, each taken under `server_mutex`: `client_constructor` for a newly allocated
record, the admission part of `run_client`, `thread_cleanup`, and the supervisor's writes of
`server_stopped`. -/
inductive Action where
  | construct (new_client : Nat)
  | admission (new_client : Nat) (fuel : Nat)
  | cleanup (new_client : Nat)
  | stop
  | resume

/-- The initial state: no client thread, server running, empty list. -/
def World.init : World := ⟨server_init, [], []⟩

/-- One step. A step that is not enabled (the record is not newly allocated, the thread is not
at this point of its code, or the walk ran out of fuel) gives `none`. -/
def World.step (w : World) : Action → Option World
  | Action.construct c =>
    if c ∈ w.started ∨ c ∈ w.serving then none
    else some ⟨client_constructor w.server c, c :: w.started, w.serving⟩
  | Action.admission c fuel =>
    if c ∈ w.started then
      match run_client w.server c fuel with
      | none => none
      | some s1 =>
        some ⟨s1, w.started.erase c,
          if w.server.server_stopped = 1 then w.serving else c :: w.serving⟩
    else none
  | Action.cleanup c =>
    if c ∈ w.serving then
      match thread_cleanup w.server c with
      | none => none
      | some s1 => some ⟨s1, w.started, w.serving.erase c⟩
    else none
  | Action.stop => some { w with server := { w.server with server_stopped := 1 } }
  | Action.resume => some { w with server := { w.server with server_stopped := 0 } }

/-- The state after a sequence of steps. -/
def World.exec (w : World) : List Action → Option World
  | [] => some w
  | a :: as =>
    match w.step a with
    | none => none
    | some w1 => w1.exec as

/-- The invariant of the transition system: the list holds exactly the serving clients, the
started clients are outside it with null links, and the count is the number of both. -/
def World.Inv (w : World) : Prop :=
  ∃ L, dchain w.server.client none w.server.thread_list_head L
    ∧ L.Perm w.serving
    ∧ w.started.Nodup
    ∧ (∀ c ∈ w.started, c ∉ w.serving ∧ w.server.client c = ⟨none, none⟩)
    ∧ w.server.num_client_threads = (w.started.length : Int) + (L.length : Int)

/-- A run with two admissions, a refusal after the supervisor stopped the server, and two
cleanups. -/
def sample_run : List Action :=
  [Action.construct 1, Action.admission 1 0, Action.construct 2, Action.admission 2 1, Action.stop,
    Action.construct 3, Action.admission 3 0, Action.cleanup 1, Action.cleanup 2]

/-! ## Theorems -/

/-! ### strcmp -/

theorem cstr_nulfree (s : CString) : 0 ∉ cstr s := by
  intro h
  have := List.mem_takeWhile_imp h
  simp at this

theorem cstr_of_nulfree (s : CString) (h : 0 ∉ s) : cstr s = s := by
  unfold cstr
  rw [List.takeWhile_eq_self_iff]
  intro x hx
  have : x ≠ 0 := fun e => h (e ▸ hx)
  simpa using this

theorem strlen_of_nulfree (s : CString) (h : 0 ∉ s) : strlen s = s.length := by
  unfold strlen; rw [cstr_of_nulfree s h]

theorem strcmp_bytes_self (a : List Nat) : strcmp_bytes a a = 0 := by
  induction a with
  | nil => rfl
  | cons x xs ih => simp [strcmp_bytes, ih]

theorem strcmp_bytes_eq (a b : List Nat) (ha : 0 ∉ a) (hb : 0 ∉ b)
    (h : strcmp_bytes a b = 0) : a = b := by
  induction a generalizing b with
  | nil =>
    cases b with
    | nil => rfl
    | cons y ys =>
      simp only [strcmp_bytes] at h
      simp only [List.mem_cons, not_or] at hb
      omega
  | cons x xs ih =>
    simp only [List.mem_cons, not_or] at ha
    cases b with
    | nil => simp only [strcmp_bytes] at h; omega
    | cons y ys =>
      simp only [List.mem_cons, not_or] at hb
      simp only [strcmp_bytes] at h
      by_cases hxy : x = y
      · simp only [hxy, if_true] at h
        rw [hxy, ih ys ha.2 hb.2 h]
      · simp only [hxy, if_false] at h
        omega

theorem strcmp_bytes_neg (a b : List Nat) : strcmp_bytes b a = - strcmp_bytes a b := by
  induction a generalizing b with
  | nil =>
    cases b with
    | nil => rfl
    | cons y ys => simp [strcmp_bytes]
  | cons x xs ih =>
    cases b with
    | nil => simp [strcmp_bytes]
    | cons y ys =>
      simp only [strcmp_bytes]
      by_cases hxy : x = y
      · simp [hxy, ih ys]
      · have : ¬ y = x := fun e => hxy e.symm
        simp [hxy, this]

theorem strcmp_bytes_trans (a b c : List Nat) (h1 : strcmp_bytes a b < 0)
    (h2 : strcmp_bytes b c < 0) : strcmp_bytes a c < 0 := by
  induction a generalizing b c with
  | nil =>
    cases b with
    | nil => simp [strcmp_bytes] at h1
    | cons y ys =>
      cases c with
      | nil => simp only [strcmp_bytes] at h1 h2; omega
      | cons z zs =>
        simp only [strcmp_bytes] at h1 h2 ⊢
        by_cases hyz : y = z
        · subst hyz; omega
        · simp only [hyz, if_false] at h2; omega
  | cons x xs ih =>
    cases b with
    | nil => simp only [strcmp_bytes] at h1; omega
    | cons y ys =>
      cases c with
      | nil => simp only [strcmp_bytes] at h2; omega
      | cons z zs =>
        simp only [strcmp_bytes] at h1 h2 ⊢
        by_cases hxy : x = y
        · subst hxy
          simp only [if_true] at h1
          by_cases hxz : x = z
          · subst hxz
            simp only [if_true] at h2 ⊢
            exact ih ys zs h1 h2
          · simp only [hxz, if_false] at h2 ⊢; exact h2
        · simp only [hxy, if_false] at h1
          by_cases hyz : y = z
          · subst hyz
            simp only [hxy, if_false]; exact h1
          · simp only [hyz, if_false] at h2
            have : ¬ x = z := by omega
            simp only [this, if_false]; omega

theorem strcmp_self (a : CString) : strcmp a a = 0 := strcmp_bytes_self _

theorem strcmp_eq_zero (a b : CString) (h : strcmp a b = 0) : cstr a = cstr b :=
  strcmp_bytes_eq _ _ (cstr_nulfree a) (cstr_nulfree b) h

theorem strcmp_eq_zero_iff (a b : CString) : strcmp a b = 0 ↔ cstr a = cstr b :=
  ⟨strcmp_eq_zero a b, fun h => by unfold strcmp; rw [h]; exact strcmp_bytes_self _⟩

theorem strcmp_congr_left (a b c : CString) (h : strcmp a b = 0) : strcmp a c = strcmp b c := by
  unfold strcmp; rw [strcmp_eq_zero a b h]

theorem strcmp_congr_right (a b c : CString) (h : strcmp a b = 0) :
    strcmp c a = strcmp c b := by
  unfold strcmp; rw [strcmp_eq_zero a b h]

theorem strcmp_neg (a b : CString) : strcmp b a = - strcmp a b := strcmp_bytes_neg _ _

theorem strcmp_trans (a b c : CString) (h1 : strcmp a b < 0) (h2 : strcmp b c < 0) :
    strcmp a c < 0 := strcmp_bytes_trans _ _ _ h1 h2

theorem strcmp_nil_right (a : CString) : ¬ strcmp a [] < 0 := by
  unfold strcmp
  cases h : cstr a with
  | nil => simp [cstr, strcmp_bytes]
  | cons x xs => simp only [cstr, List.takeWhile_nil, strcmp_bytes]; omega

theorem strcmp_eq_of_nulfree (a b : CString) (ha : 0 ∉ a) (hb : 0 ∉ b) (h : strcmp a b = 0) :
    a = b := by
  have := strcmp_eq_zero a b h
  rwa [cstr_of_nulfree a ha, cstr_of_nulfree b hb] at this

theorem unlock_shift (a p : Ptr) : Event.shift a (Event.unlock p) = Event.unlock (a ++ p) := rfl

theorem lock_node_shift (a p : Ptr) (lt : Nat) :
    Event.shift a (lock_node p lt) = lock_node (a ++ p) lt := by
  unfold lock_node; split <;> rfl

theorem search_node (k n v : CString) (l r : Tree) (addr : Ptr) (lt : Nat) :
    search k (Tree.node n v l r) addr lt =
      match (Tree.node n v l r).child (route k n) with
      | Tree.null => ⟨none, addr, []⟩
      | Tree.node cn cv cl cr =>
        if strcmp k cn = 0 then
          ⟨some (addr ++ [route k n]), addr, [lock_node (addr ++ [route k n]) lt]⟩
        else
          ⟨(search k (Tree.node cn cv cl cr) (addr ++ [route k n]) lt).result,
           (search k (Tree.node cn cv cl cr) (addr ++ [route k n]) lt).parent,
           lock_node (addr ++ [route k n]) lt :: Event.unlock addr ::
             (search k (Tree.node cn cv cl cr) (addr ++ [route k n]) lt).events⟩ := by
  unfold route
  by_cases h : strcmp k n < 0
  · simp only [h, if_true, Tree.child, Tree.lchild]
    cases l <;> (rw [search.eq_def]; simp [h])
  · simp only [h, if_false, Tree.child, Tree.rchild]
    cases r <;> (rw [search.eq_def]; simp [h])

theorem search_shift (k : CString) (t : Tree) (a b : Ptr) (lt : Nat) :
    search k t (a ++ b) lt = (search k t b lt).shift a := by
  induction t generalizing b with
  | null => simp [search, SearchResult.shift]
  | node n v l r ihl ihr =>
    rw [search_node, search_node]
    cases hd : route k n with
    | L =>
      simp only [Tree.child, Tree.lchild]
      cases l with
      | null => simp [SearchResult.shift]
      | node cn cv cl cr =>
        simp only
        split
        · simp [SearchResult.shift, lock_node_shift, unlock_shift]
        · rw [List.append_assoc, ihl]
          simp [SearchResult.shift, lock_node_shift, unlock_shift]
    | R =>
      simp only [Tree.child, Tree.rchild]
      cases r with
      | null => simp [SearchResult.shift]
      | node cn cv cl cr =>
        simp only
        split
        · simp [SearchResult.shift, lock_node_shift, unlock_shift]
        · rw [List.append_assoc, ihr]
          simp [SearchResult.shift, lock_node_shift, unlock_shift]

/-! ### path lemmas -/

theorem setc_child (t : Tree) (d : Dir) : t.setc d (t.child d) = t := by
  cases t <;> cases d <;> rfl

theorem child_setc (n v : CString) (l r : Tree) (d : Dir) (x : Tree) :
    ((Tree.node n v l r).setc d x).child d = x := by
  cases d <;> rfl

theorem set_link_eq (t : Tree) (p : Ptr) (k m : CString) (x : Tree) :
    (if strcmp k m < 0 then t.set_lchild p x else t.set_rchild p x)
      = t.set_child p (route k m) x := by
  unfold route Tree.set_child; split <;> rfl

theorem set_child_nil (n v : CString) (l r : Tree) (d : Dir) (x : Tree) :
    (Tree.node n v l r).set_child [] d x = (Tree.node n v l r).setc d x := by
  cases d <;> rfl

theorem set_child_cons (n v : CString) (l r : Tree) (d e : Dir) (p : Ptr) (x : Tree) :
    (Tree.node n v l r).set_child (d :: p) e x
      = (Tree.node n v l r).setc d (((Tree.node n v l r).child d).set_child p e x) := by
  cases d <;> cases e <;> rfl

theorem set_strings_cons (n v : CString) (l r : Tree) (d : Dir) (p : Ptr) (a b : CString) :
    (Tree.node n v l r).set_strings (d :: p) a b
      = (Tree.node n v l r).setc d (((Tree.node n v l r).child d).set_strings p a b) := by
  cases d <;> rfl

theorem get_cons (t : Tree) (d : Dir) (p : Ptr) : t.get (d :: p) = (t.child d).get p := rfl

theorem get_setc_cons (n v : CString) (l r : Tree) (d : Dir) (p : Ptr) (x : Tree) :
    ((Tree.node n v l r).setc d x).get (d :: p) = x.get p := by
  cases d <;> rfl

theorem setc_set_child_cons (n v : CString) (l r : Tree) (d e : Dir) (p : Ptr) (x y : Tree) :
    ((Tree.node n v l r).setc d y).set_child (d :: p) e x
      = (Tree.node n v l r).setc d (y.set_child p e x) := by
  cases d <;> cases e <;> rfl

/-! ### db_add -/

theorem search_step (k n v : CString) (l r : Tree) (cn cv : CString) (cl cr : Tree) (lt : Nat)
    (hc : (Tree.node n v l r).child (route k n) = Tree.node cn cv cl cr)
    (hne : strcmp k cn ≠ 0) :
    (search k (Tree.node n v l r) [] lt).result
        = ((search k (Tree.node cn cv cl cr) [] lt).result).map (fun p => route k n :: p)
    ∧ (search k (Tree.node n v l r) [] lt).parent
        = route k n :: (search k (Tree.node cn cv cl cr) [] lt).parent := by
  rw [search_node, hc]
  simp only [hne, if_false, List.nil_append]
  have h := search_shift k (Tree.node cn cv cl cr) [route k n] [] lt
  simp only [List.append_nil] at h
  rw [h]
  simp [SearchResult.shift]

theorem db_add_step (k val n v : CString) (l r : Tree) (cn cv : CString) (cl cr : Tree)
    (mem : Alloc)
    (hc : (Tree.node n v l r).child (route k n) = Tree.node cn cv cl cr)
    (hne : strcmp k cn ≠ 0) :
    (db_add (Tree.node n v l r) k val mem).val = (db_add (Tree.node cn cv cl cr) k val mem).val
    ∧ (db_add (Tree.node n v l r) k val mem).head
        = (Tree.node n v l r).setc (route k n) (db_add (Tree.node cn cv cl cr) k val mem).head := by
  obtain ⟨h1, h2⟩ := search_step k n v l r cn cv cl cr 1 hc hne
  unfold db_add
  simp only [set_link_eq, h1, h2]
  cases hs : (search k (Tree.node cn cv cl cr) [] 1).result with
  | none =>
    simp only [Option.map_none', get_cons, hc, set_child_cons, and_self]
  | some p =>
    simp only [Option.map_some', true_and]
    rw [← hc, setc_child]

theorem db_add_eq (k val : CString) (mem : Alloc) (c : Tree) :
    ∀ (n v : CString) (l r : Tree), (Tree.node n v l r).child (route k n) = c →
    (db_add (Tree.node n v l r) k val mem).val = (if (bst_find k c).isSome then 0 else 1)
    ∧ (db_add (Tree.node n v l r) k val mem).head
        = (Tree.node n v l r).setc (route k n)
            (bst_insert k (node_constructor k val Tree.null Tree.null mem) c) := by
  induction c with
  | null =>
    intro n v l r hc
    unfold db_add
    simp only [set_link_eq]
    rw [search_node, hc]
    simp [bst_find, bst_insert, Tree.get, Tree.name, set_child_nil]
  | node cn cv cl cr ihl ihr =>
    intro n v l r hc
    by_cases h0 : strcmp k cn = 0
    · unfold db_add
      rw [search_node, hc]
      simp only [h0, if_true, bst_find, bst_insert, Option.isSome_some]
      rw [← hc, setc_child]
      simp
    · obtain ⟨h1, h2⟩ := db_add_step k val n v l r cn cv cl cr mem hc h0
      rw [h1, h2]
      have ih := (if hlt : strcmp k cn < 0 then
          (by
            have := ihl cn cv cl cr (by simp [route, hlt, Tree.child, Tree.lchild])
            simpa [bst_find, bst_insert, h0, hlt, route, Tree.setc] using this)
        else
          (by
            have := ihr cn cv cl cr (by simp [route, hlt, Tree.child, Tree.rchild])
            simpa [bst_find, bst_insert, h0, hlt, route, Tree.setc] using this) :
        (db_add (Tree.node cn cv cl cr) k val mem).val
            = (if (bst_find k (Tree.node cn cv cl cr)).isSome then 0 else 1)
          ∧ (db_add (Tree.node cn cv cl cr) k val mem).head
            = bst_insert k (node_constructor k val Tree.null Tree.null mem)
                (Tree.node cn cv cl cr))
      rw [ih.1, ih.2]
      exact ⟨rfl, rfl⟩

/-! ### db_query -/

theorem db_query_head (t : Tree) (k res : CString) (len : Nat) :
    (db_query t k res len).head = t := by
  unfold db_query
  cases h : (search k t [] 0).result <;> simp only [h]

theorem loop_next (x : Tree) : ∀ (addr : Ptr) (pn : Ptr × Dir),
    (db_remove_loop x addr pn).next = addr ++ minPath x := by
  induction x with
  | null => intro addr pn; simp [db_remove_loop, minPath]
  | node n v l r ihl _ =>
    intro addr pn
    cases l with
    | null => simp [db_remove_loop, minPath]
    | node ln lv ll lr =>
      rw [db_remove_loop.eq_def]
      simp only [minPath]
      rw [ihl]
      simp

theorem loop_pnext (x : Tree) : ∀ (addr : Ptr) (pn : Ptr × Dir), pn.1 ++ [pn.2] = addr →
    (db_remove_loop x addr pn).pnext.1 ++ [(db_remove_loop x addr pn).pnext.2]
      = addr ++ minPath x := by
  induction x with
  | null => intro addr pn h; simp [db_remove_loop, minPath, h]
  | node n v l r ihl _ =>
    intro addr pn h
    cases l with
    | null => simp [db_remove_loop, minPath, h]
    | node ln lv ll lr =>
      rw [db_remove_loop.eq_def]
      simp only [minPath]
      rw [ihl (addr ++ [Dir.L]) (addr, Dir.L) rfl]
      simp

theorem loop_pnext_cons (x : Tree) (d : Dir) : ∀ (addr pa : Ptr) (pd : Dir),
    (db_remove_loop x (d :: addr) (d :: pa, pd)).pnext
      = (d :: (db_remove_loop x addr (pa, pd)).pnext.1,
          (db_remove_loop x addr (pa, pd)).pnext.2) := by
  induction x with
  | null => intro addr pa pd; simp [db_remove_loop]
  | node n v l r ihl _ =>
    intro addr pa pd
    cases l with
    | null => simp [db_remove_loop]
    | node ln lv ll lr =>
      rw [db_remove_loop.eq_def]
      conv_rhs => rw [db_remove_loop.eq_def]
      simp only
      have := ihl (addr ++ [Dir.L]) addr Dir.L
      simpa using this

theorem get_null (p : Ptr) : Tree.null.get p = Tree.null := by
  induction p with
  | nil => rfl
  | cons d p ih => cases d <;> simpa [Tree.get, Tree.child, Tree.lchild, Tree.rchild] using ih

theorem get_append (t : Tree) (p q : Ptr) : t.get (p ++ q) = (t.get p).get q := by
  induction p generalizing t with
  | nil => rfl
  | cons d p ih => simp [Tree.get, ih]

theorem get_minPath (x : Tree) : x.get (minPath x) = minNode x := by
  induction x with
  | null => rfl
  | node n v l r ihl _ =>
    cases l with
    | null => rfl
    | node ln lv ll lr => simpa [minPath, minNode, Tree.get, Tree.child, Tree.lchild] using ihl

theorem minNode_ne_null (n v : CString) (l r : Tree) : minNode (Tree.node n v l r) ≠ Tree.null := by
  induction l generalizing n v r with
  | null => simp [minNode]
  | node ln lv ll lr ihl _ => simpa [minNode] using ihl ln lv lr

theorem set_child_snoc (t : Tree) (p : Ptr) (d : Dir) (y : Tree) (h : t.get p ≠ Tree.null) :
    t.set_child p d y = Tree.modify (fun _ => y) t (p ++ [d]) := by
  induction p generalizing t with
  | nil =>
    cases t with
    | null => exact absurd rfl h
    | node n v l r =>
      cases d <;> simp [Tree.set_child, Tree.set_lchild, Tree.set_rchild, Tree.modify]
  | cons e p ih =>
    cases t with
    | null => exact absurd (get_null _) h
    | node n v l r =>
      rw [set_child_cons]
      cases e
      · have := ih l (by simpa [Tree.get, Tree.child, Tree.lchild] using h)
        simp [Tree.child, Tree.lchild, this, Tree.setc, Tree.modify]
      · have := ih r (by simpa [Tree.get, Tree.child, Tree.rchild] using h)
        simp [Tree.child, Tree.rchild, this, Tree.setc, Tree.modify]

theorem modify_minPath (x : Tree) (hx : x ≠ Tree.null) :
    Tree.modify (fun _ => (minNode x).rchild) x (minPath x) = dropMin x := by
  induction x with
  | null => exact absurd rfl hx
  | node n v l r ihl _ =>
    cases l with
    | null => simp [minPath, minNode, dropMin, Tree.modify, Tree.rchild]
    | node ln lv ll lr =>
      have := ihl (by simp)
      simp [minPath, minNode, dropMin, Tree.modify, this]

theorem modify_cons (f : Tree → Tree) (n v : CString) (l r : Tree) (d : Dir) (p : Ptr) :
    Tree.modify f (Tree.node n v l r) (d :: p)
      = (Tree.node n v l r).setc d (Tree.modify f ((Tree.node n v l r).child d) p) := by
  cases d <;> rfl

theorem route_congr (k cn n : CString) (h : strcmp k cn = 0) : route cn n = route k n := by
  unfold route; rw [strcmp_congr_left k cn n h]

theorem get_above_ne_null (t : Tree) (p q : Ptr) (h : t.get (p ++ q) ≠ Tree.null) :
    t.get p ≠ Tree.null := by
  intro hp
  rw [get_append, hp, get_null] at h
  exact h rfl

theorem name_node (n v : CString) (l r : Tree) : (Tree.node n v l r).name = n := rfl
theorem value_node (n v : CString) (l r : Tree) : (Tree.node n v l r).value = v := rfl
theorem lchild_node (n v : CString) (l r : Tree) : (Tree.node n v l r).lchild = l := rfl
theorem rchild_node (n v : CString) (l r : Tree) : (Tree.node n v l r).rchild = r := rfl
theorem get_nil (t : Tree) : t.get [] = t := rfl

theorem modify_setc_cons (f : Tree → Tree) (n v : CString) (l r : Tree) (d : Dir) (p : Ptr)
    (x : Tree) :
    Tree.modify f ((Tree.node n v l r).setc d x) (d :: p)
      = (Tree.node n v l r).setc d (Tree.modify f x p) := by
  cases d <;> rfl

theorem db_remove_found (k n v : CString) (l r : Tree) (cn cv : CString) (cl cr : Tree)
    (mem : Alloc)
    (hc : (Tree.node n v l r).child (route k n) = Tree.node cn cv cl cr)
    (h0 : strcmp k cn = 0) :
    (db_remove (Tree.node n v l r) k mem).map (fun x => (x.val, x.head))
      = (del_root mem (Tree.node cn cv cl cr)).map
          (fun c1 => (1, (Tree.node n v l r).setc (route k n) c1)) := by
  have hget : (Tree.node n v l r).get [route k n] = Tree.node cn cv cl cr := by
    simp [Tree.get, hc]
  unfold db_remove
  rw [search_node, hc]
  simp only [h0, if_true, List.nil_append, set_link_eq, hget, get_nil, name_node, value_node,
    lchild_node, rchild_node, route_congr k cn n h0, set_child_nil, del_root]
  by_cases hr : cr = Tree.null
  · simp [hr]
  · by_cases hl : cl = Tree.null
    · simp [hr, hl]
    · simp only [hr, hl, if_false]
      by_cases hm : mem 0 = false ∨ mem 1 = false
      · simp [hm]
      · simp only [hm, if_false, Option.map_some']
        simp only [List.singleton_append]
        have hnext := loop_next cr [route k n, Dir.R] ([route k n], Dir.R)
        have hpn := loop_pnext cr [route k n, Dir.R] ([route k n], Dir.R) rfl
        have hgn : (Tree.node n v l r).get ([route k n, Dir.R] ++ minPath cr) = minNode cr := by
          rw [List.cons_append, get_cons, hc, List.cons_append, get_cons]
          exact get_minPath cr
        rw [hnext, hgn, set_strings_cons, hc]
        have hss : (Tree.node cn cv cl cr).set_strings []
            (snprintf cn MAXLEN (minNode cr).name).1 (snprintf cv MAXLEN (minNode cr).value).1
            = Tree.node (snprintf cn MAXLEN (minNode cr).name).1
                (snprintf cv MAXLEN (minNode cr).value).1 cl cr := rfl
        rw [hss]
        generalize (snprintf cn MAXLEN (minNode cr).name).1 = nm
        generalize (snprintf cv MAXLEN (minNode cr).value).1 = vl
        have hg2 : ((Tree.node n v l r).setc (route k n) (Tree.node nm vl cl cr)).get
            ([route k n, Dir.R] ++ minPath cr) = minNode cr := by
          rw [List.cons_append, get_setc_cons, List.cons_append, get_cons]
          exact get_minPath cr
        have hnn : minNode cr ≠ Tree.null := by
          cases cr with
          | null => exact absurd rfl hr
          | node a b c d => exact minNode_ne_null a b c d
        rw [hg2, set_child_snoc _ _ _ _ (get_above_ne_null _ _ _ (by rw [hpn, hg2]; exact hnn)),
          hpn, List.cons_append, modify_setc_cons, List.cons_append, modify_cons]
        simp only [Tree.child, rchild_node, List.nil_append, modify_minPath cr hr, Tree.setc]

theorem loop_next_cons (x : Tree) (d : Dir) (addr : Ptr) (pn qn : Ptr × Dir) :
    (db_remove_loop x (d :: addr) pn).next = d :: (db_remove_loop x addr qn).next := by
  rw [loop_next, loop_next]; rfl

theorem db_remove_step (k n v : CString) (l r : Tree) (cn cv : CString) (cl cr : Tree)
    (mem : Alloc)
    (hc : (Tree.node n v l r).child (route k n) = Tree.node cn cv cl cr)
    (hne : strcmp k cn ≠ 0) :
    (db_remove (Tree.node n v l r) k mem).map (fun x => (x.val, x.head))
      = (db_remove (Tree.node cn cv cl cr) k mem).map
          (fun x => (x.val, (Tree.node n v l r).setc (route k n) x.head)) := by
  obtain ⟨h1, h2⟩ := search_step k n v l r cn cv cl cr 1 hc hne
  unfold db_remove
  simp only [set_link_eq, h1, h2]
  cases hs : (search k (Tree.node cn cv cl cr) [] 1).result with
  | none =>
    simp only [Option.map_none', Option.map_some']
    rw [← hc, setc_child]
  | some p =>
    simp only [Option.map_some', get_cons, hc, set_child_cons, List.cons_append,
      loop_next_cons _ _ _ (route k n :: p, Dir.R) (p, Dir.R), loop_pnext_cons,
      set_strings_cons, get_setc_cons, setc_set_child_cons, child_setc]
    split
    · rfl
    · split
      · rfl
      · split
        · rfl
        · rfl

theorem db_remove_eq (k : CString) (mem : Alloc) (c : Tree) :
    ∀ (n v : CString) (l r : Tree), (Tree.node n v l r).child (route k n) = c →
    (db_remove (Tree.node n v l r) k mem).map (fun x => (x.val, x.head))
      = (bst_delete k mem c).map (fun c1 =>
          ((if (bst_find k c).isSome then 1 else 0 : Int),
            (Tree.node n v l r).setc (route k n) c1)) := by
  induction c with
  | null =>
    intro n v l r hc
    unfold db_remove
    rw [search_node, hc]
    simp only [bst_delete, bst_find, Option.map_some']
    have := setc_child (Tree.node n v l r) (route k n)
    rw [hc] at this
    rw [this]
    rfl
  | node cn cv cl cr ihl ihr =>
    intro n v l r hc
    by_cases h0 : strcmp k cn = 0
    · rw [db_remove_found k n v l r cn cv cl cr mem hc h0]
      simp [bst_delete, bst_find, h0]
    · rw [db_remove_step k n v l r cn cv cl cr mem hc h0]
      have hmm : ∀ o : Option (Ret Int),
          o.map (fun x => (x.val, (Tree.node n v l r).setc (route k n) x.head))
            = (o.map (fun x => (x.val, x.head))).map
                (fun y => (y.1, (Tree.node n v l r).setc (route k n) y.2)) := by
        intro o; cases o <;> rfl
      rw [hmm]
      by_cases hlt : strcmp k cn < 0
      · rw [ihl cn cv cl cr (by simp [route, hlt, Tree.child, Tree.lchild])]
        simp only [bst_delete, bst_find, h0, hlt, if_true, if_false, Option.map_map]
        congr 1
        funext c1
        simp [route, hlt, Tree.setc]
      · rw [ihr cn cv cl cr (by simp [route, hlt, Tree.child, Tree.rchild])]
        simp only [bst_delete, bst_find, h0, hlt, if_true, if_false, Option.map_map]
        congr 1
        funext c1
        simp [route, hlt, Tree.setc]

/-! ### bindings in order -/

theorem snprintf_ok (d s : CString) (h : ok s) : (snprintf d MAXLEN s).1 = s := by
  unfold snprintf MAXLEN
  simp only [Nat.reduceEqDiff, if_false, cstr_of_nulfree s h.1]
  exact List.take_of_length_le (by have := h.2; omega)

theorem node_constructor_ok (k v : CString) (mem : Alloc) (hk : ok k) (hv : ok v)
    (h0 : mem 0 = true) (h1 : mem 1 = true) (h2 : mem 2 = true) :
    node_constructor k v Tree.null Tree.null mem = Tree.node k v Tree.null Tree.null := by
  unfold node_constructor
  have e1 : strlen k = k.length := strlen_of_nulfree k hk.1
  have e2 : strlen v = v.length := strlen_of_nulfree v hv.1
  have l1 := hk.2
  have l2 := hv.2
  have s1 : ¬ ((snprintf [] MAXLEN k).2 < 0) := by simp [snprintf]
  have s2 : ¬ ((snprintf [] MAXLEN v).2 < 0) := by simp [snprintf]
  have g : ¬ (k.length > MAXLEN ∨ v.length > MAXLEN) := by unfold MAXLEN; omega
  simp only [snprintf_ok _ k hk, snprintf_ok _ v hv, h0, h1, h2, e1, e2, s1, s2, g, if_false]
  simp

theorem find_some_mem (k : CString) (c : Tree) (v : CString) (h : bst_find k c = some v) :
    ∃ n, (n, v) ∈ c.kvs ∧ strcmp k n = 0 := by
  induction c with
  | null => simp [bst_find] at h
  | node cn cv cl cr ihl ihr =>
    simp only [bst_find] at h
    by_cases h0 : strcmp k cn = 0
    · simp only [h0, if_true, Option.some.injEq] at h
      exact ⟨cn, by simp [Tree.kvs, h], h0⟩
    · simp only [h0, if_false] at h
      by_cases hlt : strcmp k cn < 0
      · simp only [hlt, if_true] at h
        obtain ⟨n, hn, hz⟩ := ihl h
        exact ⟨n, by simp [Tree.kvs, hn], hz⟩
      · simp only [hlt, if_false] at h
        obtain ⟨n, hn, hz⟩ := ihr h
        exact ⟨n, by simp [Tree.kvs, hn], hz⟩

theorem sorted_node (n v : CString) (l r : Tree)
    (h : (Tree.node n v l r).kvs.Pairwise kv_lt) :
    l.kvs.Pairwise kv_lt ∧ r.kvs.Pairwise kv_lt ∧ (∀ a ∈ l.kvs, strcmp a.1 n < 0)
      ∧ (∀ b ∈ r.kvs, strcmp n b.1 < 0) := by
  simp only [Tree.kvs, List.pairwise_append, List.pairwise_cons] at h
  refine ⟨h.1, h.2.1.2, ?_, ?_⟩
  · intro a ha
    exact h.2.2 a ha (n, v) (by simp)
  · intro b hb
    exact h.2.1.1 b hb

theorem find_mem (k : CString) (c : Tree) (hs : c.kvs.Pairwise kv_lt) (n v : CString)
    (hm : (n, v) ∈ c.kvs) (hz : strcmp k n = 0) : bst_find k c = some v := by
  induction c with
  | null => simp [Tree.kvs] at hm
  | node cn cv cl cr ihl ihr =>
    obtain ⟨sl, sr, bl, br⟩ := sorted_node cn cv cl cr hs
    simp only [Tree.kvs, List.mem_append, List.mem_cons, Prod.mk.injEq] at hm
    simp only [bst_find]
    rcases hm with hm | ⟨rfl, rfl⟩ | hm
    · have h1 := bl _ hm
      simp only at h1
      rw [← strcmp_congr_left k n cn hz] at h1
      have : ¬ strcmp k cn = 0 := by omega
      simp only [this, if_false, h1, if_true]
      exact ihl sl hm
    · simp [hz]
    · have h1 := br _ hm
      simp only at h1
      rw [← strcmp_congr_right k n cn hz, strcmp_neg] at h1
      have : ¬ strcmp k cn = 0 := by omega
      have h2 : ¬ strcmp k cn < 0 := by omega
      simp only [this, if_false, h2]
      exact ihr sr hm

theorem insert_null (k : CString) (c : Tree) : bst_insert k Tree.null c = c := by
  induction c with
  | null => rfl
  | node cn cv cl cr ihl ihr =>
    simp only [bst_insert, ihl, ihr]
    split
    · rfl
    · split <;> rfl

theorem kvs_insert (k xn xv : CString) (c : Tree) (hs : c.kvs.Pairwise kv_lt)
    (hf : bst_find k c = none) :
    ∃ l1 l2, c.kvs = l1 ++ l2
      ∧ (bst_insert k (Tree.node xn xv Tree.null Tree.null) c).kvs = l1 ++ (xn, xv) :: l2
      ∧ (∀ a ∈ l1, strcmp a.1 k < 0) ∧ (∀ b ∈ l2, strcmp k b.1 < 0) := by
  induction c with
  | null => exact ⟨[], [], by simp [Tree.kvs, bst_insert]⟩
  | node cn cv cl cr ihl ihr =>
    obtain ⟨sl, sr, bl, br⟩ := sorted_node cn cv cl cr hs
    simp only [bst_find] at hf
    by_cases h0 : strcmp k cn = 0
    · simp [h0] at hf
    · simp only [h0, if_false] at hf
      by_cases hlt : strcmp k cn < 0
      · simp only [hlt, if_true] at hf
        obtain ⟨l1, l2, e1, e2, b1, b2⟩ := ihl sl hf
        refine ⟨l1, l2 ++ (cn, cv) :: cr.kvs, ?_, ?_, b1, ?_⟩
        · simp [Tree.kvs, e1]
        · simp [bst_insert, h0, hlt, Tree.kvs, e2]
        · intro b hb
          simp only [List.mem_append, List.mem_cons] at hb
          rcases hb with hb | rfl | hb
          · exact b2 b hb
          · exact hlt
          · exact strcmp_trans _ _ _ hlt (br b hb)
      · simp only [hlt, if_false] at hf
        obtain ⟨l1, l2, e1, e2, b1, b2⟩ := ihr sr hf
        have hgt : strcmp cn k < 0 := by rw [strcmp_neg]; omega
        refine ⟨cl.kvs ++ (cn, cv) :: l1, l2, ?_, ?_, ?_, b2⟩
        · simp [Tree.kvs, e1]
        · simp [bst_insert, h0, hlt, Tree.kvs, e2]
        · intro a ha
          simp only [List.mem_append, List.mem_cons] at ha
          rcases ha with ha | rfl | ha
          · exact strcmp_trans _ _ _ (bl a ha) hgt
          · exact hgt
          · exact b1 a ha

theorem kvs_min (r : Tree) (hr : r ≠ Tree.null) :
    r.kvs = ((minNode r).name, (minNode r).value) :: (dropMin r).kvs := by
  induction r with
  | null => exact absurd rfl hr
  | node n v l r ihl _ =>
    cases l with
    | null => simp [minNode, dropMin, Tree.kvs, Tree.name, Tree.value]
    | node ln lv ll lr =>
      have := ihl (by simp)
      simp only [minNode, dropMin, Tree.kvs] at this ⊢
      rw [this]
      simp

theorem kvs_del_root (mem : Alloc) (n v : CString) (l r c1 : Tree) (hok : r.allOk)
    (h : del_root mem (Tree.node n v l r) = some c1) : c1.kvs = l.kvs ++ r.kvs := by
  simp only [del_root] at h
  by_cases hr : r = Tree.null
  · simp only [hr, if_true, Option.some.injEq] at h
    simp [← h, hr, Tree.kvs]
  · simp only [hr, if_false] at h
    by_cases hl : l = Tree.null
    · simp only [hl, if_true, Option.some.injEq] at h
      simp [← h, hl, Tree.kvs]
    · simp only [hl, if_false] at h
      by_cases hm : mem 0 = false ∨ mem 1 = false
      · simp [hm] at h
      · simp only [hm, if_false, Option.some.injEq] at h
        have hk := kvs_min r hr
        have hmem : ((minNode r).name, (minNode r).value) ∈ r.kvs := by rw [hk]; simp
        have := hok _ hmem
        rw [snprintf_ok _ _ this.1, snprintf_ok _ _ this.2] at h
        rw [← h, hk]
        simp [Tree.kvs]

theorem allOk_node (n v : CString) (l r : Tree) (h : (Tree.node n v l r).allOk) :
    l.allOk ∧ r.allOk ∧ ok n ∧ ok v := by
  unfold Tree.allOk at h ⊢
  simp only [Tree.kvs, List.mem_append, List.mem_cons] at h
  exact ⟨fun a ha => h a (Or.inl ha), fun a ha => h a (Or.inr (Or.inr ha)),
    h (n, v) (Or.inr (Or.inl rfl))⟩

theorem kvs_delete (k : CString) (mem : Alloc) (c : Tree) (hok : c.allOk) (v : CString)
    (hf : bst_find k c = some v) (c1 : Tree) (hd : bst_delete k mem c = some c1) :
    ∃ l1 n l2, c.kvs = l1 ++ (n, v) :: l2 ∧ strcmp k n = 0 ∧ c1.kvs = l1 ++ l2 := by
  induction c generalizing c1 with
  | null => simp [bst_find] at hf
  | node cn cv cl cr ihl ihr =>
    obtain ⟨okl, okr, _, _⟩ := allOk_node cn cv cl cr hok
    simp only [bst_find] at hf
    simp only [bst_delete] at hd
    by_cases h0 : strcmp k cn = 0
    · simp only [h0, if_true, Option.some.injEq] at hf hd
      subst hf
      exact ⟨cl.kvs, cn, cr.kvs, by simp [Tree.kvs], h0, kvs_del_root mem cn cv cl cr c1 okr hd⟩
    · simp only [h0, if_false] at hf hd
      by_cases hlt : strcmp k cn < 0
      · simp only [hlt, if_true] at hf hd
        cases hdl : bst_delete k mem cl with
        | none => simp [hdl] at hd
        | some l1 =>
          simp only [hdl, Option.map_some', Option.some.injEq] at hd
          obtain ⟨a, n, b, e1, ez, e2⟩ := ihl okl hf l1 hdl
          exact ⟨a, n, b ++ (cn, cv) :: cr.kvs, by simp [Tree.kvs, e1], ez,
            by simp [← hd, Tree.kvs, e2]⟩
      · simp only [hlt, if_false] at hf hd
        cases hdr : bst_delete k mem cr with
        | none => simp [hdr] at hd
        | some r1 =>
          simp only [hdr, Option.map_some', Option.some.injEq] at hd
          obtain ⟨a, n, b, e1, ez, e2⟩ := ihr okr hf r1 hdr
          exact ⟨cl.kvs ++ (cn, cv) :: a, n, b, by simp [Tree.kvs, e1], ez,
            by simp [← hd, Tree.kvs, e2]⟩

theorem delete_none (k : CString) (mem : Alloc) (c : Tree) (hf : bst_find k c = none) :
    bst_delete k mem c = some c := by
  induction c with
  | null => rfl
  | node cn cv cl cr ihl ihr =>
    simp only [bst_find] at hf
    simp only [bst_delete]
    by_cases h0 : strcmp k cn = 0
    · simp [h0] at hf
    · simp only [h0, if_false] at hf ⊢
      by_cases hlt : strcmp k cn < 0
      · simp only [hlt, if_true] at hf ⊢
        rw [ihl hf]; rfl
      · simp only [hlt, if_false] at hf ⊢
        rw [ihr hf]; rfl

theorem delete_some (k : CString) (mem : Alloc) (c : Tree) (h0 : mem 0 = true)
    (h1 : mem 1 = true) : ∃ c1, bst_delete k mem c = some c1 := by
  induction c with
  | null => exact ⟨_, rfl⟩
  | node cn cv cl cr ihl ihr =>
    simp only [bst_delete]
    by_cases hz : strcmp k cn = 0
    · simp only [hz, if_true, del_root, h0, h1]
      by_cases hr : cr = Tree.null
      · simp [hr]
      · by_cases hl : cl = Tree.null
        · simp [hr, hl]
        · simp [hr, hl]
    · simp only [hz, if_false]
      by_cases hlt : strcmp k cn < 0
      · obtain ⟨c1, e⟩ := ihl
        simp [hlt, e]
      · obtain ⟨c1, e⟩ := ihr
        simp [hlt, e]

theorem route_nil (k : CString) : route k [] = Dir.R := by
  unfold route; simp [strcmp_nil_right k]

theorem strcmp_irrefl (a : CString) : ¬ strcmp a a < 0 := by
  rw [strcmp_self]; omega

theorem find_of_mem (r : Tree) (kv : List (CString × CString)) (hr : r.kvs = kv)
    (hs : kv.Pairwise kv_lt) (k v : CString) (hm : (k, v) ∈ kv) : bst_find k r = some v :=
  find_mem k r (hr ▸ hs) k v (hr ▸ hm) (strcmp_self k)

theorem find_none_of_not_mem (r : Tree) (kv : List (CString × CString)) (hr : r.kvs = kv)
    (hok : ∀ a ∈ kv, ok a.1 ∧ ok a.2) (k : CString) (hk : 0 ∉ k)
    (hm : ∀ v, (k, v) ∉ kv) : bst_find k r = none := by
  cases hf : bst_find k r with
  | none => rfl
  | some v =>
    obtain ⟨n, hn, hz⟩ := find_some_mem k r v hf
    rw [hr] at hn
    have := strcmp_eq_of_nulfree k n hk (hok _ hn).1.1 hz
    subst this
    exact absurd hn (hm v)

theorem sorted_insert (l1 l2 : List (CString × CString)) (k v : CString)
    (hs : (l1 ++ l2).Pairwise kv_lt) (b1 : ∀ a ∈ l1, strcmp a.1 k < 0)
    (b2 : ∀ b ∈ l2, strcmp k b.1 < 0) : (l1 ++ (k, v) :: l2).Pairwise kv_lt := by
  rw [List.pairwise_append] at hs ⊢
  refine ⟨hs.1, List.pairwise_cons.2 ⟨fun b hb => b2 b hb, hs.2.1⟩, ?_⟩
  intro a ha b hb
  simp only [List.mem_cons] at hb
  rcases hb with rfl | hb
  · exact b1 a ha
  · exact hs.2.2 a ha b hb

theorem sorted_erase (l1 l2 : List (CString × CString)) (x : CString × CString)
    (hs : (l1 ++ x :: l2).Pairwise kv_lt) :
    (l1 ++ l2).Pairwise kv_lt ∧ ∀ a ∈ l1 ++ l2, a.1 ≠ x.1 := by
  rw [List.pairwise_append] at hs
  obtain ⟨h1, h2, h3⟩ := hs
  rw [List.pairwise_cons] at h2
  refine ⟨List.pairwise_append.2 ⟨h1, h2.2, fun a ha b hb => h3 a ha b (by simp [hb])⟩, ?_⟩
  intro a ha e
  simp only [List.mem_append] at ha
  rcases ha with ha | ha
  · have := h3 a ha x (by simp)
    unfold kv_lt at this
    rw [e] at this
    exact strcmp_irrefl _ this
  · have := h2.1 a ha
    unfold kv_lt at this
    rw [e] at this
    exact strcmp_irrefl _ this

theorem add_found_inv (h : Tree) (kv : List (CString × CString)) (hi : Inv h kv)
    (k v v0 : CString) (mem : Alloc) (hm : (k, v0) ∈ kv) :
    (db_add h k v mem).val = 0 ∧ (db_add h k v mem).head = h := by
  obtain ⟨r, rfl, hr, hs, hok⟩ := hi
  have ha := db_add_eq k v mem r [] [] Tree.null r (by rw [route_nil]; rfl)
  have hf := find_of_mem r kv hr hs k v0 hm
  rw [ha.1, ha.2, hf, route_nil]
  refine ⟨rfl, ?_⟩
  have : bst_insert k (node_constructor k v Tree.null Tree.null mem) r = r := by
    clear ha hr
    induction r with
    | null => simp [bst_find] at hf
    | node cn cv cl cr ihl ihr =>
      simp only [bst_find] at hf
      simp only [bst_insert]
      by_cases h0 : strcmp k cn = 0
      · simp [h0]
      · simp only [h0, if_false] at hf ⊢
        by_cases hlt : strcmp k cn < 0
        · simp only [hlt, if_true] at hf ⊢
          rw [ihl hf]
        · simp only [hlt, if_false] at hf ⊢
          rw [ihr hf]
  rw [this]; rfl

theorem add_fresh_inv (h : Tree) (kv : List (CString × CString)) (hi : Inv h kv)
    (k v : CString) (mem : Alloc) (hk : ok k) (hv : ok v) (hm : ∀ v0, (k, v0) ∉ kv) :
    (db_add h k v mem).val = 1
    ∧ ((db_add h k v mem).head = h ∨
        ∃ l1 l2, kv = l1 ++ l2 ∧ Inv (db_add h k v mem).head (l1 ++ (k, v) :: l2))
    ∧ (mem 0 = true → mem 1 = true → mem 2 = true →
        ∃ l1 l2, kv = l1 ++ l2 ∧ Inv (db_add h k v mem).head (l1 ++ (k, v) :: l2)) := by
  obtain ⟨r, rfl, hr, hs, hok⟩ := hi
  have ha := db_add_eq k v mem r [] [] Tree.null r (by rw [route_nil]; rfl)
  have hf := find_none_of_not_mem r kv hr hok k hk.1 hm
  rw [ha.1, ha.2, hf, route_nil]
  have good : node_constructor k v Tree.null Tree.null mem = Tree.node k v Tree.null Tree.null →
      ∃ l1 l2, kv = l1 ++ l2 ∧ Inv ((Tree.node [] [] Tree.null r).setc Dir.R
        (bst_insert k (node_constructor k v Tree.null Tree.null mem) r)) (l1 ++ (k, v) :: l2) := by
    intro e
    rw [e]
    obtain ⟨l1, l2, e1, e2, b1, b2⟩ := kvs_insert k k v r (hr ▸ hs) hf
    refine ⟨l1, l2, by rw [← hr, e1], _, rfl, e2, ?_, ?_⟩
    · exact sorted_insert l1 l2 k v (by rw [← e1, hr]; exact hs) b1 b2
    · intro a ha
      simp only [List.mem_append, List.mem_cons] at ha
      rcases ha with ha | rfl | ha
      · exact hok a (by rw [← hr, e1]; simp [ha])
      · exact ⟨hk, hv⟩
      · exact hok a (by rw [← hr, e1]; simp [ha])
  refine ⟨rfl, ?_, ?_⟩
  · by_cases e : node_constructor k v Tree.null Tree.null mem
        = Tree.node k v Tree.null Tree.null
    · exact Or.inr (good e)
    · left
      have : node_constructor k v Tree.null Tree.null mem = Tree.null := by
        by_cases m0 : mem 0 = true
        · by_cases m1 : mem 1 = true
          · by_cases m2 : mem 2 = true
            · exact absurd (node_constructor_ok k v mem hk hv m0 m1 m2) e
            · simp [node_constructor, m2]
          · simp [node_constructor, m1]
        · simp [node_constructor, m0]
      rw [this, insert_null]; rfl
  · intro m0 m1 m2
    exact good (node_constructor_ok k v mem hk hv m0 m1 m2)

theorem remove_absent_inv (h : Tree) (kv : List (CString × CString)) (hi : Inv h kv)
    (k : CString) (mem : Alloc) (hk : 0 ∉ k) (hm : ∀ v0, (k, v0) ∉ kv) :
    ∃ d, db_remove h k mem = some d ∧ d.val = 0 ∧ d.head = h := by
  obtain ⟨r, rfl, hr, hs, hok⟩ := hi
  have he := db_remove_eq k mem r [] [] Tree.null r (by rw [route_nil]; rfl)
  have hf := find_none_of_not_mem r kv hr hok k hk hm
  rw [delete_none k mem r hf, hf, route_nil] at he
  cases hd : db_remove (Tree.node [] [] Tree.null r) k mem with
  | none => simp [hd] at he
  | some d =>
    simp only [hd, Option.map_some', Option.some.injEq, Prod.mk.injEq] at he
    exact ⟨d, rfl, he.1, he.2⟩

theorem remove_present_inv (h : Tree) (kv : List (CString × CString)) (hi : Inv h kv)
    (k v0 : CString) (mem : Alloc) (hm : (k, v0) ∈ kv) :
    (∀ d, db_remove h k mem = some d →
      d.val = 1 ∧ ∃ l1 l2, kv = l1 ++ (k, v0) :: l2 ∧ Inv d.head (l1 ++ l2))
    ∧ (mem 0 = true → mem 1 = true → ∃ d, db_remove h k mem = some d) := by
  obtain ⟨r, rfl, hr, hs, hok⟩ := hi
  have he := db_remove_eq k mem r [] [] Tree.null r (by rw [route_nil]; rfl)
  have hf := find_of_mem r kv hr hs k v0 hm
  rw [hf, route_nil] at he
  constructor
  · intro d hd
    rw [hd] at he
    cases hb : bst_delete k mem r with
    | none => simp [hb] at he
    | some c1 =>
      simp only [hb, Option.map_some', Option.some.injEq, Prod.mk.injEq, Option.isSome_some,
        if_true] at he
      obtain ⟨l1, n, l2, e1, ez, e2⟩ := kvs_delete k mem r (by rw [Tree.allOk, hr]; exact hok)
        v0 hf c1 hb
      have hn : (n, v0) ∈ kv := by rw [← hr, e1]; simp
      have := strcmp_eq_of_nulfree k n (hok _ hm).1.1 (hok _ hn).1.1 ez
      subst this
      have hs2 := sorted_erase l1 l2 (k, v0) (by rw [← e1, hr]; exact hs)
      refine ⟨he.1, l1, l2, by rw [← hr, e1], c1, he.2, e2, hs2.1, ?_⟩
      intro a ha
      exact hok a (by
        rw [← hr, e1]
        simp only [List.mem_append, List.mem_cons] at ha ⊢
        tauto)
  · intro m0 m1
    obtain ⟨c1, hc1⟩ := delete_some k mem r m0 m1
    rw [hc1] at he
    cases hd : db_remove (Tree.node [] [] Tree.null r) k mem with
    | none => simp [hd] at he
    | some d => exact ⟨d, rfl⟩

/-! ### sequences of calls against a finite map -/

theorem inorder_eq (t : Tree) : t.inorder = t.kvs.map Prod.fst := by
  induction t with
  | null => rfl
  | node n v l r ihl ihr => simp [Tree.inorder, Tree.kvs, ihl, ihr]

theorem isBST_of_sorted (t : Tree) (h : t.inorder.Pairwise (fun a b => strcmp a b < 0)) :
    t.isBST := by
  induction t with
  | null => trivial
  | node n v l r ihl ihr =>
    simp only [Tree.inorder, List.pairwise_append, List.pairwise_cons] at h
    exact ⟨fun a ha => h.2.2 a ha n (by simp), fun b hb => h.2.1.1 b hb, ihl h.1, ihr h.2.1.2⟩

theorem sorted_of_isBST (t : Tree) (h : t.isBST) :
    t.inorder.Pairwise (fun a b => strcmp a b < 0) := by
  induction t with
  | null => exact List.Pairwise.nil
  | node n v l r ihl ihr =>
    obtain ⟨bl, br, hl, hr⟩ := h
    simp only [Tree.inorder, List.pairwise_append, List.pairwise_cons]
    refine ⟨ihl hl, ⟨br, ihr hr⟩, ?_⟩
    intro a ha b hb
    simp only [List.mem_cons] at hb
    rcases hb with rfl | hb
    · exact bl a ha
    · exact strcmp_trans _ _ _ (bl a ha) (br b hb)

theorem inv_order (h : Tree) (kv : List (CString × CString)) (hi : Inv h kv) :
    (names_below h).Pairwise (fun a b => strcmp a b < 0)
      ∧ h.lchild.isBST ∧ h.rchild.isBST ∧ (names_below h).Nodup := by
  obtain ⟨r, rfl, hr, hs, _⟩ := hi
  have e : names_below (Tree.node [] [] Tree.null r) = r.inorder := by
    simp [names_below, Tree.lchild, Tree.rchild, Tree.inorder]
  have hp : r.inorder.Pairwise (fun a b => strcmp a b < 0) := by
    rw [inorder_eq, List.pairwise_map, hr]; exact hs
  rw [e]
  refine ⟨hp, trivial, isBST_of_sorted r hp, ?_⟩
  refine hp.imp ?_
  intro a b hab e
  rw [e] at hab
  exact strcmp_irrefl b hab

theorem call_inv (h : Tree) (kv : List (CString × CString)) (hi : Inv h kv) (c : Call)
    (hc : c.sized) :
    (∀ a h1, call h c = some (a, h1) → ∃ kv1, Inv h1 kv1)
      ∧ (c.allocated → ∃ a h1, call h c = some (a, h1)) := by
  cases c with
  | query name result len =>
    refine ⟨?_, fun _ => ⟨_, _, rfl⟩⟩
    intro a h1 e
    simp only [call, Option.some.injEq, Prod.mk.injEq] at e
    rw [← e.2, db_query_head]
    exact ⟨kv, hi⟩
  | add name value mem =>
    refine ⟨?_, fun _ => ⟨_, _, rfl⟩⟩
    intro a h1 e
    simp only [call, Option.some.injEq, Prod.mk.injEq] at e
    rw [← e.2]
    by_cases hex : ∃ v0, (name, v0) ∈ kv
    · obtain ⟨v0, hv0⟩ := hex
      rw [(add_found_inv h kv hi name value v0 mem hv0).2]
      exact ⟨kv, hi⟩
    · obtain ⟨_, a2, _⟩ := add_fresh_inv h kv hi name value mem hc.1 hc.2
        (fun v0 hv0 => hex ⟨v0, hv0⟩)
      rcases a2 with a2 | ⟨l1, l2, _, a2⟩
      · rw [a2]; exact ⟨kv, hi⟩
      · exact ⟨_, a2⟩
  | remove name mem =>
    by_cases hex : ∃ v0, (name, v0) ∈ kv
    · obtain ⟨v0, hv0⟩ := hex
      obtain ⟨r1, r2⟩ := remove_present_inv h kv hi name v0 mem hv0
      constructor
      · intro a h1 e
        simp only [call] at e
        cases hd : db_remove h name mem with
        | none => simp [hd] at e
        | some d =>
          simp only [hd, Option.map_some', Option.some.injEq, Prod.mk.injEq] at e
          obtain ⟨_, l1, l2, _, hi2⟩ := r1 d hd
          exact ⟨_, e.2 ▸ hi2⟩
      · intro ha
        obtain ⟨d, hd⟩ := r2 ha.1 ha.2
        exact ⟨Answer.code d.val, d.head, by simp only [call, hd, Option.map_some']⟩
    · obtain ⟨d, d1, d2, d3⟩ := remove_absent_inv h kv hi name mem hc.1
        (fun v0 hv0 => hex ⟨v0, hv0⟩)
      constructor
      · intro a h1 e
        simp only [call, d1, Option.map_some', Option.some.injEq, Prod.mk.injEq] at e
        exact ⟨kv, by rw [← e.2, d3]; exact hi⟩
      · intro _
        exact ⟨Answer.code d.val, d.head, by simp only [call, d1, Option.map_some']⟩

theorem run_inv (cs : List Call) : ∀ (h : Tree) (kv : List (CString × CString)), Inv h kv →
    (∀ c ∈ cs, c.sized) →
    (∀ as h1, run h cs = some (as, h1) → ∃ kv1, Inv h1 kv1)
      ∧ ((∀ c ∈ cs, c.allocated) → ∃ as h1, run h cs = some (as, h1)) := by
  induction cs with
  | nil =>
    intro h kv hi _
    refine ⟨?_, fun _ => ⟨_, _, rfl⟩⟩
    intro as h1 e
    simp only [run, Option.some.injEq, Prod.mk.injEq] at e
    exact ⟨kv, e.2 ▸ hi⟩
  | cons c cs ih =>
    intro h kv hi hv
    obtain ⟨c1, c2⟩ := call_inv h kv hi c (hv c (by simp))
    constructor
    · intro as h2 e
      simp only [run] at e
      cases hc : call h c with
      | none => simp [hc] at e
      | some p =>
        obtain ⟨a, h1⟩ := p
        obtain ⟨kv1, hi1⟩ := c1 a h1 hc
        simp only [hc] at e
        cases hr : run h1 cs with
        | none => simp [hr] at e
        | some q =>
          obtain ⟨as1, h3⟩ := q
          simp only [hr, Option.some.injEq, Prod.mk.injEq] at e
          exact (ih h1 kv1 hi1 (fun c1 hc1 => hv c1 (by simp [hc1]))).1 as1 h2 (by rw [hr, e.2])
    · intro ha
      obtain ⟨a, h1, hc⟩ := c2 (ha c (by simp))
      obtain ⟨kv1, hi1⟩ := c1 a h1 hc
      obtain ⟨as, h2, hr⟩ := (ih h1 kv1 hi1 (fun c1 hc1 => hv c1 (by simp [hc1]))).2
        (fun c1 hc1 => ha c1 (by simp [hc1]))
      exact ⟨a :: as, h2, by simp [run, hc, hr]⟩

/-- C2: after every finite sequence of `db_add` and `db_remove` calls (queries may be mixed
in) applied to the empty store, with NUL-free names and values of at most 255 bytes and
whatever the allocation outcomes, the in-order traversal of the nodes below the sentinel
yields strictly increasing names under `strcmp`; every node has only smaller names to its
left and only greater names to its right, and no name occurs twice.  The sequence returns
whenever its allocations succeed. -/
theorem bst_order_after_calls (cs : List Call) (hv : ∀ c ∈ cs, c.sized) :
    (∀ as h, run head_init cs = some (as, h) →
      (names_below h).Pairwise (fun a b => strcmp a b < 0)
        ∧ h.lchild.isBST ∧ h.rchild.isBST ∧ (names_below h).Nodup)
    ∧ ((∀ c ∈ cs, c.allocated) → ∃ as h, run head_init cs = some (as, h)) := by
  have hi : Inv head_init [] := ⟨Tree.null, rfl, rfl, List.Pairwise.nil, by simp⟩
  obtain ⟨r1, r2⟩ := run_inv cs head_init [] hi hv
  refine ⟨?_, r2⟩
  intro as h e
  obtain ⟨kv, hk⟩ := r1 as h e
  exact inv_order h kv hk

/-- C2, on the command sequence of scenario S2: the calls are admissible and the order holds
after them. -/
theorem bst_order_after_calls_witness :
    (∀ c ∈ S2, c.sized)
    ∧ (∀ as h, run head_init S2 = some (as, h) →
        (names_below h).Pairwise (fun a b => strcmp a b < 0)
          ∧ h.lchild.isBST ∧ h.rchild.isBST ∧ (names_below h).Nodup)
    ∧ ((∀ c ∈ S2, c.allocated) → ∃ as h, run head_init S2 = some (as, h)) :=
  have hv : ∀ c ∈ S2, c.sized := by
    intro c hc
    simp only [S2, List.mem_cons, List.mem_singleton, List.not_mem_nil, or_false] at hc
    rcases hc with rfl | rfl | rfl | rfl | rfl | rfl | rfl | rfl <;>
      (simp only [Call.sized]; decide)
  ⟨hv, bst_order_after_calls S2 hv⟩

/-- Scenario S2 evaluated: after the seven additions and the removal of `m`, the names below
the sentinel are `a c f p t z` in this order. -/
theorem s2_names :
    (run head_init S2).map (fun p => names_below p.2)
      = some [lit "a", lit "c", lit "f", lit "p", lit "t", lit "z"] := by
  decide

/-! ### db_add and node_constructor -/

theorem node_constructor_null (name value : CString) (mem : Alloc)
    (h : MAXLEN < strlen name ∨ MAXLEN < strlen value ∨ mem 0 = false ∨ mem 1 = false
      ∨ mem 2 = false) :
    node_constructor name value Tree.null Tree.null mem = Tree.null := by
  unfold node_constructor
  by_cases hl : strlen name > MAXLEN ∨ strlen value > MAXLEN
  · simp only [hl, if_true]
  · simp only [hl, if_false]
    have hm : mem 0 = false ∨ mem 1 = false ∨ mem 2 = false := by
      rcases h with h | h | h
      · exact absurd (Or.inl h) hl
      · exact absurd (Or.inr h) hl
      · exact h
    cases m0 : mem 0 <;> cases m1 : mem 1 <;> cases m2 : mem 2 <;> simp_all

/-- C4: whenever `node_constructor` yields no node inside `db_add`, because the name or the
value is longer than 256 bytes or because one of the three allocations fails, the tree after
`db_add` is the tree before the call. -/
theorem db_add_without_node_keeps_tree (head : Tree) (name value : CString) (mem : Alloc)
    (h : MAXLEN < strlen name ∨ MAXLEN < strlen value ∨ mem 0 = false ∨ mem 1 = false
      ∨ mem 2 = false) :
    node_constructor name value Tree.null Tree.null mem = Tree.null
      ∧ (db_add head name value mem).head = head := by
  have hc := node_constructor_null name value mem h
  refine ⟨hc, ?_⟩
  cases head with
  | null =>
    unfold db_add
    simp only [search, set_link_eq, hc]
    cases route name (Tree.null.get []).name <;> rfl
  | node n v l r =>
    rw [(db_add_eq name value mem _ n v l r rfl).2, hc, insert_null, setc_child]

set_option maxRecDepth 100000 in
/-- C4, at a 257-byte name on a store that holds `cat`. -/
theorem db_add_without_node_keeps_tree_witness :
    (MAXLEN < strlen (List.replicate 257 120) ∨ MAXLEN < strlen (lit "v")
      ∨ Alloc.ok 0 = false ∨ Alloc.ok 1 = false ∨ Alloc.ok 2 = false)
    ∧ node_constructor (List.replicate 257 120) (lit "v") Tree.null Tree.null Alloc.ok
        = Tree.null
    ∧ (db_add (Tree.node [] [] Tree.null (Tree.node (lit "cat") (lit "meow") Tree.null Tree.null))
        (List.replicate 257 120) (lit "v") Alloc.ok).head
      = Tree.node [] [] Tree.null (Tree.node (lit "cat") (lit "meow") Tree.null Tree.null) :=
  ⟨Or.inl (by decide),
    db_add_without_node_keeps_tree
      (Tree.node [] [] Tree.null (Tree.node (lit "cat") (lit "meow") Tree.null Tree.null))
      (List.replicate 257 120) (lit "v") Alloc.ok (Or.inl (by decide))⟩

/-! ### adding twice -/

theorem inorder_child_below (n v : CString) (l r : Tree) (d : Dir) (x : CString)
    (hx : x ∈ ((Tree.node n v l r).child d).inorder) : x ∈ names_below (Tree.node n v l r) := by
  cases d
  · simp only [Tree.child, Tree.lchild] at hx
    simp [names_below, Tree.lchild, hx]
  · simp only [Tree.child, Tree.rchild] at hx
    simp [names_below, Tree.rchild, hx]

/-- C7: for every tree, in search-tree order or not, and every name that no node below the
sentinel carries (no node name equals it as a C string), `db_remove(name)` returns 0 and
leaves the tree identical to the tree before the call, whatever the allocation outcomes. -/
theorem db_remove_absent_is_noop (hn hv : CString) (l r : Tree) (name : CString) (mem : Alloc)
    (habs : ∀ n ∈ names_below (Tree.node hn hv l r), strcmp name n ≠ 0) :
    ∃ d, db_remove (Tree.node hn hv l r) name mem = some d ∧ d.val = 0
      ∧ d.head = Tree.node hn hv l r := by
  have hf : bst_find name ((Tree.node hn hv l r).child (route name hn)) = none := by
    cases hf : bst_find name ((Tree.node hn hv l r).child (route name hn)) with
    | none => rfl
    | some x =>
      obtain ⟨n, hm, hz⟩ := find_some_mem name _ x hf
      have hin : n ∈ ((Tree.node hn hv l r).child (route name hn)).inorder := by
        rw [inorder_eq]
        exact List.mem_map.2 ⟨(n, x), hm, rfl⟩
      exact absurd hz (habs n (inorder_child_below hn hv l r _ n hin))
  have he := db_remove_eq name mem _ hn hv l r rfl
  rw [delete_none name mem _ hf, hf] at he
  cases hd : db_remove (Tree.node hn hv l r) name mem with
  | none => simp [hd] at he
  | some d =>
    simp only [hd, Option.map_some', Option.some.injEq, Prod.mk.injEq, setc_child] at he
    exact ⟨d, rfl, he.1, he.2⟩

/-- C7, on the tree of scenario S2 before the removal, with the absent name `bird`. -/
theorem db_remove_absent_is_noop_witness :
    (∀ n ∈ names_below (Tree.node [] [] Tree.null
        (Tree.node (lit "m") (lit "1")
          (Tree.node (lit "c") (lit "2") Tree.null Tree.null)
          (Tree.node (lit "t") (lit "3") Tree.null Tree.null))),
      strcmp (lit "bird") n ≠ 0)
    ∧ ∃ d, db_remove (Tree.node [] [] Tree.null
        (Tree.node (lit "m") (lit "1")
          (Tree.node (lit "c") (lit "2") Tree.null Tree.null)
          (Tree.node (lit "t") (lit "3") Tree.null Tree.null))) (lit "bird") Alloc.ok = some d
      ∧ d.val = 0
      ∧ d.head = Tree.node [] [] Tree.null
        (Tree.node (lit "m") (lit "1")
          (Tree.node (lit "c") (lit "2") Tree.null Tree.null)
          (Tree.node (lit "t") (lit "3") Tree.null Tree.null)) :=
  ⟨by decide,
    db_remove_absent_is_noop [] [] Tree.null
      (Tree.node (lit "m") (lit "1")
        (Tree.node (lit "c") (lit "2") Tree.null Tree.null)
        (Tree.node (lit "t") (lit "3") Tree.null Tree.null)) (lit "bird") Alloc.ok (by decide)⟩

/-! ### the print dump -/

theorem apply_lock_node (held : List Ptr) (p : Ptr) (lt : Nat) :
    Event.apply held (lock_node p lt) = p :: held := by
  unfold lock_node; split <;> rfl

theorem lock_node_ne_unlock (p q : Ptr) (lt : Nat) : lock_node p lt ≠ Event.unlock q := by
  unfold lock_node; split <;> simp

theorem snoc_ne_self (a : Ptr) (d : Dir) : a ++ [d] ≠ a := by
  intro h
  have := congrArg List.length h
  simp at this

theorem coupled_single (p : Ptr) : coupled_locks [p] :=
  ⟨by simp, fun _ _ h => by simp at h⟩

theorem coupled_pair (p : Ptr) (d : Dir) : coupled_locks [p ++ [d], p] :=
  ⟨by simp, fun a b h => by
    simp only [List.cons.injEq, and_true] at h
    exact ⟨d, by rw [← h.1, ← h.2]⟩⟩

theorem search_coupled (name : CString) (lt : Nat) (t : Tree) : ∀ addr : Ptr,
    Coupled [addr] (search name t addr lt).events := by
  induction t with
  | null => intro addr; simp [search, Coupled]
  | node n v l r ihl ihr =>
    intro addr
    rw [search_node]
    have step : ∀ (c : Tree) (d : Dir), Coupled [addr ++ [d]] (search name c (addr ++ [d]) lt).events →
        Coupled [addr] (lock_node (addr ++ [d]) lt :: Event.unlock addr ::
          (search name c (addr ++ [d]) lt).events) := by
      intro c d hc
      refine ⟨fun p hp => absurd hp (lock_node_ne_unlock _ _ _), ?_, ?_⟩
      · rw [apply_lock_node]; exact coupled_pair addr d
      · rw [apply_lock_node]
        have he : Event.apply [addr ++ [d], addr] (Event.unlock addr) = [addr ++ [d]] := by
          simp [Event.apply, List.erase_cons, snoc_ne_self]
        refine ⟨?_, ?_, ?_⟩
        · intro p hp
          simp only [Event.unlock.injEq] at hp
          exact ⟨d, by rw [hp]⟩
        · rw [he]; exact coupled_single _
        · rw [he]; exact hc
    have found : ∀ d : Dir, Coupled [addr] [lock_node (addr ++ [d]) lt] := by
      intro d
      refine ⟨fun p hp => absurd hp (lock_node_ne_unlock _ _ _), ?_, trivial⟩
      rw [apply_lock_node]; exact coupled_pair addr d
    cases hd : route name n with
    | L =>
      simp only [Tree.child, lchild_node]
      cases l with
      | null => simp [Coupled]
      | node cn cv cl cr =>
        simp only
        split
        · exact found Dir.L
        · exact step _ Dir.L (ihl _)
    | R =>
      simp only [Tree.child, rchild_node]
      cases r with
      | null => simp [Coupled]
      | node cn cv cl cr =>
        simp only
        split
        · exact found Dir.R
        · exact step _ Dir.R (ihr _)

theorem coupled_initial (es : List Event) : ∀ (held : List Ptr), coupled_locks held →
    Coupled held es → ∀ pre, pre <+: es →
      coupled_locks (held_after held pre)
      ∧ ∀ pre1 p, pre = pre1 ++ [Event.unlock p] →
          ∃ d : Dir, held_after held pre1 = [p ++ [d], p] := by
  induction es with
  | nil =>
    intro held hc _ pre hp
    have : pre = [] := List.prefix_nil.1 hp
    subst this
    refine ⟨hc, ?_⟩
    intro pre1 p h
    simp at h
  | cons e es ih =>
    intro held hc hcp pre hp
    cases pre with
    | nil =>
      refine ⟨hc, ?_⟩
      intro pre1 p h
      simp at h
    | cons x xs =>
      obtain ⟨c1, c2, c3⟩ := hcp
      have hx : x = e ∧ xs <+: es := by
        rw [List.cons_prefix_cons] at hp
        exact hp
      obtain ⟨rfl, hxs⟩ := hx
      obtain ⟨i1, i2⟩ := ih (Event.apply held x) c2 c3 xs hxs
      refine ⟨i1, ?_⟩
      intro pre1 p h
      cases pre1 with
      | nil =>
        simp only [List.nil_append, List.cons.injEq] at h
        exact c1 p h.1
      | cons y ys =>
        simp only [List.cons_append, List.cons.injEq] at h
        obtain ⟨rfl, h2⟩ := h
        exact i2 ys p h2

/-- C10: for every tree, name and lock mode, in the sequence of lock events produced by
locking the sentinel and running `search`, after every initial part of the sequence the
caller holds at most two node locks, two held locks are those of a node and its child, and
whenever a lock is released the locks held just before are exactly that node's and, taken
after it, its child's. -/
theorem search_lock_coupling (head : Tree) (name : CString) (lock_type : Nat)
    (pre : List Event)
    (hpre : pre <+: lock_node [] lock_type :: (search name head [] lock_type).events) :
    (held_after [] pre).length ≤ 2
    ∧ (∀ p q, held_after [] pre = [q, p] → ∃ d : Dir, q = p ++ [d])
    ∧ (∀ pre1 p, pre = pre1 ++ [Event.unlock p] →
        ∃ d : Dir, held_after [] pre1 = [p ++ [d], p]) := by
  have hc : Coupled [] (lock_node [] lock_type :: (search name head [] lock_type).events) := by
    refine ⟨fun p hp => absurd hp (lock_node_ne_unlock _ _ _), ?_, ?_⟩
    · rw [apply_lock_node]; exact coupled_single _
    · rw [apply_lock_node]; exact search_coupled name lock_type head []
  obtain ⟨⟨h1, h2⟩, h3⟩ := coupled_initial _ [] ⟨by simp, fun _ _ h => by simp at h⟩ hc pre hpre
  exact ⟨h1, h2, h3⟩

/-! ### tokens of a command -/

theorem blank_nulfree (s : CString) (h : blank s) : 0 ∉ s := by
  intro h0
  have := h 0 h0
  simp [isspace] at this

theorem solid_nulfree (s : CString) (h : solid s) : 0 ∉ s := by
  intro h0
  exact (h 0 h0).2 rfl

theorem cstr_append (a b : CString) (h : 0 ∉ a) : cstr (a ++ b) = a ++ cstr b := by
  induction a with
  | nil => rfl
  | cons x xs ih =>
    simp only [List.mem_cons, not_or] at h
    have hx : x ≠ 0 := fun e => h.1 e.symm
    simp only [cstr, List.cons_append, List.takeWhile_cons, bne_iff_ne, ne_eq, hx,
      not_false_eq_true, if_true, List.cons.injEq, true_and]
    exact ih h.2

theorem dropWhile_blank (sp rest : CString) (h : blank sp) :
    (sp ++ rest).dropWhile isspace = rest.dropWhile isspace := by
  induction sp with
  | nil => rfl
  | cons x xs ih =>
    have hx : isspace x = true := h x (by simp)
    simp only [List.cons_append, List.dropWhile_cons, hx, if_true]
    exact ih (fun b hb => h b (by simp [hb]))

theorem dropWhile_solid (tok rest : CString) (h : solid tok) (hne : tok ≠ []) :
    (tok ++ rest).dropWhile isspace = tok ++ rest := by
  cases tok with
  | nil => exact absurd rfl hne
  | cons x xs =>
    have hx : isspace x = false := (h x (by simp)).1
    simp [List.dropWhile_cons, hx]

theorem takeWhile_solid (tok rest : CString) (h : solid tok) (he : token_end rest) :
    (tok ++ rest).takeWhile (fun c => !isspace c) = tok := by
  induction tok with
  | nil =>
    rcases he with rfl | ⟨b, t, rfl, hb⟩
    · rfl
    · simp [List.takeWhile_cons, hb]
  | cons x xs ih =>
    have hx : isspace x = false := (h x (by simp)).1
    simp only [List.cons_append, List.takeWhile_cons, hx, Bool.not_false, if_true,
      List.cons.injEq, true_and]
    exact ih (fun b hb => h b (by simp [hb]))

theorem scan_blank (w : Nat) (s : CString) (h : blank s) : scan_s w s = none := by
  have : s.dropWhile isspace = [] := by
    rw [List.dropWhile_eq_nil_iff]
    exact h
  simp [scan_s, this]

theorem scan_token (w : Nat) (sp tok rest : CString) (hsp : blank sp) (htok : solid tok)
    (hne : tok ≠ []) (hw : 0 < w) (he : token_end rest) :
    scan_s w (sp ++ tok ++ rest) = some (tok.take w, tok.drop w ++ rest) := by
  have h1 : (sp ++ tok ++ rest).dropWhile isspace = tok ++ rest := by
    rw [List.append_assoc, dropWhile_blank sp _ hsp, dropWhile_solid tok rest htok hne]
  have h2 : tok.take w ≠ [] := by
    cases tok with
    | nil => exact absurd rfl hne
    | cons x xs =>
      cases w with
      | zero => omega
      | succ n => simp
  unfold scan_s
  simp only [h1, takeWhile_solid tok rest htok he, h2, if_false, Option.some.injEq,
    Prod.mk.injEq, true_and]
  rw [List.length_take]
  by_cases hl : w ≤ tok.length
  · rw [Nat.min_eq_left hl, List.drop_append_of_le_length hl]
  · have hl2 : tok.length ≤ w := by omega
    rw [Nat.min_eq_right hl2, List.drop_append_of_le_length (le_refl _)]
    simp [List.drop_of_length_le hl2]

theorem token_end_append_blank (a b : CString) (ha : blank a) (hb : token_end b) :
    token_end (a ++ b) := by
  cases a with
  | nil => exact hb
  | cons x xs => exact Or.inr ⟨x, xs ++ b, rfl, ha x (by simp)⟩

/-! ### what `sscanf` finds -/

theorem tail_cstr_nulfree (command : CString) : cstr (cstr command).tail = (cstr command).tail := by
  apply cstr_of_nulfree
  intro h
  exact cstr_nulfree command (List.mem_of_mem_tail h)

theorem sscanf_s_blank (input : CString) (h : blank (cstr input)) : sscanf_s input = (-1, []) := by
  simp [sscanf_s, scan_blank 255 _ h]

theorem sscanf_s_token (input sp tok rest : CString) (hi : cstr input = sp ++ tok ++ rest)
    (hsp : blank sp) (htok : solid tok) (hne : tok ≠ []) (he : token_end rest) :
    sscanf_s input = (1, tok.take 255) := by
  unfold sscanf_s
  rw [hi, scan_token 255 sp tok rest hsp htok hne (by omega) he]

theorem sscanf_s_s_blank (input : CString) (h : blank (cstr input)) :
    (sscanf_s_s input).1 = -1 := by
  simp [sscanf_s_s, scan_blank 255 _ h]

theorem sscanf_s_s_one (input sp tok rest : CString) (hi : cstr input = sp ++ tok ++ rest)
    (hsp : blank sp) (htok : solid tok) (hne : tok ≠ []) (hlen : tok.length ≤ 255)
    (hr : blank rest) : (sscanf_s_s input).1 = 1 := by
  have he : token_end rest := by
    cases rest with
    | nil => exact Or.inl rfl
    | cons x xs => exact Or.inr ⟨x, xs, rfl, hr x (by simp)⟩
  unfold sscanf_s_s
  rw [hi, scan_token 255 sp tok rest hsp htok hne (by omega) he]
  simp only [List.drop_of_length_le hlen, List.nil_append, scan_blank 255 rest hr]

theorem sscanf_s_s_long (input sp tok rest : CString) (hi : cstr input = sp ++ tok ++ rest)
    (hsp : blank sp) (htok : solid tok) (hlong : 255 < tok.length) (he : token_end rest) :
    sscanf_s_s input = (2, tok.take 255, (tok.drop 255).take 255) := by
  have hne : tok ≠ [] := by
    intro e; rw [e] at hlong; simp at hlong
  have hd : tok.drop 255 ≠ [] := by
    intro e
    have := congrArg List.length e
    simp at this
    omega
  have hs : solid (tok.drop 255) := fun b hb => htok b (List.mem_of_mem_drop hb)
  have h2 := scan_token 255 [] (tok.drop 255) rest (fun _ h => by simp at h) hs hd (by omega) he
  simp only [List.nil_append] at h2
  unfold sscanf_s_s
  rw [hi, scan_token 255 sp tok rest hsp htok hne (by omega) he]
  simp only [h2]

theorem sscanf_s_s_two (input sp name sp2 tok rest : CString)
    (hi : cstr input = sp ++ name ++ sp2 ++ tok ++ rest)
    (hsp : blank sp) (hname : solid name) (hnn : name ≠ []) (hnl : name.length ≤ 255)
    (hsp2 : blank sp2) (hs2 : sp2 ≠ []) (htok : solid tok) (hne : tok ≠ [])
    (he : token_end rest) :
    sscanf_s_s input = (2, name, tok.take 255) := by
  have he1 : token_end (sp2 ++ tok ++ rest) := by
    cases sp2 with
    | nil => exact absurd rfl hs2
    | cons x xs => exact Or.inr ⟨x, xs ++ tok ++ rest, by simp, hsp2 x (by simp)⟩
  have h1 := scan_token 255 sp name (sp2 ++ tok ++ rest) hsp hname hnn (by omega) he1
  have hi2 : cstr input = sp ++ name ++ (sp2 ++ tok ++ rest) := by
    rw [hi]; simp [List.append_assoc]
  have h2 := scan_token 255 sp2 tok rest hsp2 htok hne (by omega) he
  unfold sscanf_s_s
  rw [hi2, h1]
  simp only [List.drop_of_length_le hnl, List.take_of_length_le hnl, List.nil_append, h2]

/-! ### the interpreter on long tokens -/

theorem command_parts (command : CString) (c : Nat) (args : CString)
    (h : cstr command = c :: args) (ha : args ≠ []) :
    ¬ strlen command ≤ 1 ∧ (cstr command).headD 0 = c ∧ (cstr command).tail = args
      ∧ cstr args = args := by
  refine ⟨?_, by rw [h]; rfl, by rw [h]; rfl, ?_⟩
  · unfold strlen
    rw [h]
    cases args with
    | nil => exact absurd rfl ha
    | cons x xs => simp
  · have := tail_cstr_nulfree command
    rw [h] at this
    exact this

/-- C5 as amended: a NAME or VALUE token longer than 255 bytes is not rejected, it is cut.
For a command whose first token after the selector is longer than 255 bytes, `q` answers as
`db_query` on the first 255 bytes of the token, `d` as `db_remove` on them, and `a` as
`db_add` of the first 255 bytes as name and the next at most 255 bytes of the same token as
value; for an `a` command whose VALUE token is longer than 255 bytes, `db_add` receives the
first 255 bytes of it. -/
theorem long_token_is_cut (fuel : Nat) (env : Env) (head : Tree)
    (command response : CString) (len : Nat) (c : Nat) (sp tok rest : CString)
    (hcmd : cstr command = c :: (sp ++ tok ++ rest)) (hsp : blank sp) (htok : solid tok)
    (hlong : 255 < tok.length) (hend : token_end rest) :
    (c = 113 → interpret_command fuel env head command response len
        = some (if strlen (db_query head (tok.take 255) response len).val = 0
            then (snprintf (db_query head (tok.take 255) response len).val len
              (lit "not found")).1
            else (db_query head (tok.take 255) response len).val, head))
    ∧ (c = 100 → interpret_command fuel env head command response len
        = (db_remove head (tok.take 255) env.mem).map (fun d =>
            (if d.val ≠ 0 then (snprintf response len (lit "removed")).1
              else (snprintf response len (lit "not in database")).1, d.head)))
    ∧ (c = 97 → interpret_command fuel env head command response len
        = some (if (db_add head (tok.take 255) ((tok.drop 255).take 255) env.mem).val ≠ 0
            then (snprintf response len (lit "added")).1
            else (snprintf response len (lit "already in database")).1,
          (db_add head (tok.take 255) ((tok.drop 255).take 255) env.mem).head))
    ∧ (∀ command2 name sp2 : CString,
        cstr command2 = 97 :: (sp ++ name ++ sp2 ++ tok ++ rest) → solid name → name ≠ [] →
        name.length ≤ 255 → blank sp2 → sp2 ≠ [] →
        interpret_command fuel env head command2 response len
          = some (if (db_add head name (tok.take 255) env.mem).val ≠ 0
              then (snprintf response len (lit "added")).1
              else (snprintf response len (lit "already in database")).1,
            (db_add head name (tok.take 255) env.mem).head)) := by
  have hne : tok ≠ [] := by
    intro e; rw [e] at hlong; simp at hlong
  have hargs : sp ++ tok ++ rest ≠ [] := by
    intro e
    simp only [List.append_eq_nil, and_assoc] at e
    exact hne e.2.1
  obtain ⟨p1, p2, p3, p4⟩ := command_parts command c _ hcmd hargs
  refine ⟨?_, ?_, ?_, ?_⟩
  · intro hc
    subst hc
    have hs := sscanf_s_token _ sp tok rest p4 hsp htok hne hend
    unfold interpret_command
    simp only [p1, p2, p3, hs, if_false, if_true]
    simp only [show ¬ ((1 : Int) < 1) by decide, if_false]
    split <;> rfl
  · intro hc
    subst hc
    have hs := sscanf_s_token _ sp tok rest p4 hsp htok hne hend
    unfold interpret_command
    simp only [p1, p2, p3, hs, if_false]
    simp only [show ¬ ((1 : Int) < 1) by decide, Nat.reduceEqDiff, if_false, if_true]
    cases db_remove head (List.take 255 tok) env.mem with
    | none => rfl
    | some d =>
      simp only [Option.map_some']
      split <;> rfl
  · intro hc
    subst hc
    have hs := sscanf_s_s_long _ sp tok rest p4 hsp htok hlong hend
    unfold interpret_command
    simp only [p1, p2, p3, hs, if_false]
    simp only [show ¬ ((2 : Int) < 2) by decide, Nat.reduceEqDiff, if_false, if_true]
    split <;> rfl
  · intro command2 name sp2 hcmd2 hname hnn hnl hsp2 hs2
    have hargs2 : sp ++ name ++ sp2 ++ tok ++ rest ≠ [] := by
      intro e
      simp only [List.append_eq_nil, and_assoc] at e
      exact hne e.2.2.2.1
    obtain ⟨q1, q2, q3, q4⟩ := command_parts command2 97 _ hcmd2 hargs2
    have hs := sscanf_s_s_two _ sp name sp2 tok rest q4 hsp hname hnn hnl hsp2 hs2 htok hne hend
    unfold interpret_command
    simp only [q1, q2, q3, hs, if_false]
    simp only [show ¬ ((2 : Int) < 2) by decide, Nat.reduceEqDiff, if_false, if_true]
    split <;> rfl

set_option maxRecDepth 100000 in
/-- C5 fails as stated: on the empty store the command `q` followed by a NAME token of 256
bytes is answered `not found`, not `ill-formed command`. -/
theorem long_name_query_not_rejected :
    solid (List.replicate 256 120) ∧ 255 < (List.replicate 256 120).length
    ∧ interpret_command 0 env0 head_init (113 :: List.replicate 256 120) [] 512
        = some (lit "not found", head_init)
    ∧ lit "not found" ≠ lit "ill-formed command" := by
  decide

set_option maxRecDepth 100000 in
/-- C5 as amended, at the command `q` followed by 256 bytes `x` on the empty store. -/
theorem long_token_is_cut_witness :
    (cstr (113 :: List.replicate 256 120) = 113 :: ([] ++ List.replicate 256 120 ++ [])
      ∧ blank [] ∧ solid (List.replicate 256 120) ∧ 255 < (List.replicate 256 120).length
      ∧ token_end [])
    ∧ (113 = 113 → interpret_command 0 env0 head_init (113 :: List.replicate 256 120) [] 512
        = some (if strlen (db_query head_init ((List.replicate 256 120).take 255) [] 512).val = 0
            then (snprintf (db_query head_init ((List.replicate 256 120).take 255) [] 512).val
              512 (lit "not found")).1
            else (db_query head_init ((List.replicate 256 120).take 255) [] 512).val,
          head_init)) :=
  ⟨⟨by decide, by decide, by decide, by decide, Or.inl rfl⟩,
    (long_token_is_cut 0 env0 head_init (113 :: List.replicate 256 120) [] 512 113 []
      (List.replicate 256 120) [] (by decide) (by decide) (by decide) (by decide)
      (Or.inl rfl)).1⟩

/-- C9 as amended: a command string of at most one byte, or whose first byte is none of
`q`, `a`, `d`, `f`, or a `q`/`d`/`f` command with no token after the selector, or an `a`
command with no token or with a single token of at most 255 bytes after the selector, makes
`interpret_command` write `ill-formed command` (whole, in a buffer of more than 18 bytes) and
leaves the store as it was. -/
theorem malformed_command_is_rejected (fuel : Nat) (env : Env) (head : Tree)
    (command response : CString) (len : Nat) (h : malformed command) :
    interpret_command fuel env head command response len
        = some ((snprintf response len (lit "ill-formed command")).1, head)
    ∧ (18 < len → (snprintf response len (lit "ill-formed command")).1
        = lit "ill-formed command") := by
  constructor
  · by_cases h1 : strlen command ≤ 1
    · unfold interpret_command
      simp only [h1, if_true]
    · have ht := tail_cstr_nulfree command
      rcases h with h | ⟨n1, n2, n3, n4⟩ | ⟨hc, hb⟩ | ⟨hc, hb⟩
      · exact absurd h h1
      · unfold interpret_command
        simp only [h1, n1, n2, n3, n4, if_false]
      · have hs := sscanf_s_blank (cstr command).tail (by rw [ht]; exact hb)
        unfold interpret_command
        rcases hc with hc | hc | hc <;>
          simp only [h1, hc, hs, if_false, if_true, Nat.reduceEqDiff,
            show ((-1 : Int) < 1) by decide]
      · unfold interpret_command
        rcases hb with hb | ⟨sp, tok, sp2, e, hsp, htok, hne, hlen, hsp2⟩
        · have hs := sscanf_s_s_blank (cstr command).tail (by rw [ht]; exact hb)
          simp only [h1, hc, hs, if_false, if_true, Nat.reduceEqDiff,
            show ((-1 : Int) < 2) by decide]
        · have hs := sscanf_s_s_one (cstr command).tail sp tok sp2 (by rw [ht]; exact e)
            hsp htok hne hlen hsp2
          simp only [h1, hc, hs, if_false, if_true, Nat.reduceEqDiff,
            show ((1 : Int) < 2) by decide]
  · intro hl
    unfold snprintf
    have h0 : len ≠ 0 := by omega
    simp only [h0, if_false]
    have e : cstr (lit "ill-formed command") = lit "ill-formed command" := by decide
    rw [e]
    exact List.take_of_length_le (by
      have : (lit "ill-formed command").length = 18 := by decide
      omega)

/-- C9 as amended, at the command `a cat` (one token after the selector). -/
theorem malformed_command_is_rejected_witness :
    malformed (lit "a cat\n")
    ∧ interpret_command 0 env0 head_init (lit "a cat\n") [] 512
        = some ((snprintf [] 512 (lit "ill-formed command")).1, head_init)
    ∧ (18 < 512 → (snprintf [] 512 (lit "ill-formed command")).1
        = lit "ill-formed command") :=
  have hm : malformed (lit "a cat\n") :=
    Or.inr (Or.inr (Or.inr ⟨by decide,
      Or.inr ⟨lit " ", lit "cat", lit "\n", by decide, by decide, by decide, by decide,
        by decide, by decide⟩⟩))
  ⟨hm, malformed_command_is_rejected 0 env0 head_init (lit "a cat\n") [] 512 hm⟩

set_option maxRecDepth 100000 in
/-- C9 fails as stated: the command `a` followed by one token of 256 bytes has fewer than
two tokens after the selector, yet on the empty store it is answered `added` and the store
gains a node named by the first 255 bytes, with the last byte as value. -/
theorem single_long_token_is_added :
    solid (List.replicate 256 120)
    ∧ interpret_command 0 env0 head_init (97 :: List.replicate 256 120) [] 512
        = some (lit "added",
            Tree.node [] [] Tree.null
              (Tree.node (List.replicate 255 120) [120] Tree.null Tree.null))
    ∧ lit "added" ≠ lit "ill-formed command" := by
  decide

/-- C10, on the tree of scenario S2 and the name `p`, for the first three events: the
sentinel is locked, its right child is locked, the sentinel is released. -/
theorem search_lock_coupling_witness :
    (List.take 3 (lock_node [] 0 :: (search (lit "p")
        (Tree.node [] [] Tree.null
          (Tree.node (lit "m") (lit "1") Tree.null
            (Tree.node (lit "t") (lit "3")
              (Tree.node (lit "p") (lit "6") Tree.null Tree.null) Tree.null))) [] 0).events)
      <+: lock_node [] 0 :: (search (lit "p")
        (Tree.node [] [] Tree.null
          (Tree.node (lit "m") (lit "1") Tree.null
            (Tree.node (lit "t") (lit "3")
              (Tree.node (lit "p") (lit "6") Tree.null Tree.null) Tree.null))) [] 0).events)
    ∧ (held_after [] (List.take 3 (lock_node [] 0 :: (search (lit "p")
        (Tree.node [] [] Tree.null
          (Tree.node (lit "m") (lit "1") Tree.null
            (Tree.node (lit "t") (lit "3")
              (Tree.node (lit "p") (lit "6") Tree.null Tree.null) Tree.null))) [] 0).events))).length
        ≤ 2 :=
  ⟨List.take_prefix _ _,
    (search_lock_coupling
      (Tree.node [] [] Tree.null
        (Tree.node (lit "m") (lit "1") Tree.null
          (Tree.node (lit "t") (lit "3")
            (Tree.node (lit "p") (lit "6") Tree.null Tree.null) Tree.null)))
      (lit "p") 0 _ (List.take_prefix _ _)).1⟩

/-! ### removing a node with two children -/

theorem track_append (es1 es2 : List Event) : ∀ held : List Ptr,
    track held (es1 ++ es2) = (track held es1).bind (fun h => track h es2) := by
  induction es1 with
  | nil => intro held; rfl
  | cons e es ih =>
    intro held
    cases e with
    | rdlock p => exact ih (p :: held)
    | wrlock p => exact ih (p :: held)
    | unlock p =>
      simp only [List.cons_append, track]
      split
      · exact ih _
      · rfl
    | destroy p =>
      simp only [List.cons_append, track]
      split
      · rfl
      · exact ih _

theorem track_lock_node (held : List Ptr) (p : Ptr) (lt : Nat) (es : List Event) :
    track held (lock_node p lt :: es) = track (p :: held) es := by
  unfold lock_node; split <;> rfl

theorem track_nil (held : List Ptr) : track held [] = some held := rfl

theorem track_unlock_top (held : List Ptr) (p : Ptr) (es : List Event) :
    track (p :: held) (Event.unlock p :: es) = track held es := by
  simp [track]

theorem track_unlock_second (held : List Ptr) (p q : Ptr) (es : List Event) (h : q ≠ p) :
    track (q :: p :: held) (Event.unlock p :: es) = track (q :: held) es := by
  have : (q == p) = false := by simpa using h
  simp [track, List.erase_cons, this]

theorem search_track (k : CString) (lt : Nat) (t : Tree) : ∀ (addr : Ptr) (held : List Ptr),
    track (addr :: held) (search k t addr lt).events
        = some (search_held (search k t addr lt) held)
      ∧ (∀ tg, (search k t addr lt).result = some tg →
          ∃ d : Dir, tg = (search k t addr lt).parent ++ [d]) := by
  induction t with
  | null => intro addr held; simp [search, track, search_held]
  | node n v l r ihl ihr =>
    intro addr held
    rw [search_node]
    have step : ∀ (c : Tree) (d : Dir),
        (track ((addr ++ [d]) :: held) (search k c (addr ++ [d]) lt).events
            = some (search_held (search k c (addr ++ [d]) lt) held)) →
        track (addr :: held) (lock_node (addr ++ [d]) lt :: Event.unlock addr ::
            (search k c (addr ++ [d]) lt).events)
          = some (search_held (search k c (addr ++ [d]) lt) held) := by
      intro c d hc
      rw [track_lock_node, track_unlock_second _ _ _ _ (snoc_ne_self addr d), hc]
    cases hd : route k n with
    | L =>
      simp only [Tree.child, lchild_node]
      cases l with
      | null => simp [track, search_held]
      | node cn cv cl cr =>
        simp only
        split
        · refine ⟨by rw [track_lock_node]; rfl, ?_⟩
          intro tg h
          simp only [Option.some.injEq] at h
          exact ⟨Dir.L, h.symm⟩
        · obtain ⟨i1, i2⟩ := ihl (addr ++ [Dir.L]) held
          exact ⟨by simpa [search_held] using step _ Dir.L i1, i2⟩
    | R =>
      simp only [Tree.child, rchild_node]
      cases r with
      | null => simp [track, search_held]
      | node cn cv cl cr =>
        simp only
        split
        · refine ⟨by rw [track_lock_node]; rfl, ?_⟩
          intro tg h
          simp only [Option.some.injEq] at h
          exact ⟨Dir.R, h.symm⟩
        · obtain ⟨i1, i2⟩ := ihr (addr ++ [Dir.R]) held
          exact ⟨by simpa [search_held] using step _ Dir.R i1, i2⟩

theorem loop_track (x : Tree) : ∀ (addr : Ptr) (pn : Ptr × Dir) (held : List Ptr),
    track (addr :: held) (db_remove_loop x addr pn).events
      = some ((db_remove_loop x addr pn).next :: held) := by
  induction x with
  | null => intro addr pn held; simp [db_remove_loop, track]
  | node n v l r ihl _ =>
    intro addr pn held
    cases l with
    | null => simp [db_remove_loop, track]
    | node ln lv ll lr =>
      rw [db_remove_loop.eq_def]
      simp only
      rw [track_lock_node, track_unlock_second _ _ _ _ (snoc_ne_self addr Dir.L)]
      exact ihl _ _ _

theorem print_track (t : Tree) : ∀ (addr : Ptr) (lvl : Nat) (held : List Ptr),
    track held (db_print_recurs t addr lvl).2 = some held := by
  induction t with
  | null => intro addr lvl held; simp [db_print_recurs, track]
  | node n v l r ihl ihr =>
    intro addr lvl held
    have hne : addr ++ [Dir.R] ≠ addr ++ [Dir.L] := by simp
    simp only [db_print_recurs]
    cases l <;> cases r <;>
      simp only [ne_eq, not_true_eq_false, not_false_eq_true, if_true, if_false, reduceCtorEq,
        List.nil_append, List.append_nil, List.singleton_append, List.cons_append,
        List.append_assoc, track_lock_node, track_append, ihl, ihr, Option.some_bind,
        track_unlock_top, track_unlock_second _ _ _ _ hne, track_nil]

theorem track_tail_none (p : Ptr) : track [p] [Event.unlock p] = some [] := by
  simp [track]

theorem track_tail_some (t p : Ptr) :
    track [t, p] [Event.unlock t, Event.unlock p] = some [] := by
  simp [track]

theorem track_tail_destroy (t p : Ptr) (h : t ≠ p) :
    track [t, p] [Event.unlock t, Event.destroy t, Event.unlock p] = some [] := by
  simp [track, h]

theorem track_tail_walk (x t p : Ptr) (h1 : x ≠ t) (h2 : x ≠ p) :
    track [x, t, p] [Event.unlock x, Event.destroy x, Event.unlock t, Event.unlock p]
      = some [] := by
  simp [track, h1, h2]

theorem db_query_balanced (head : Tree) (name result : CString) (len : Nat) :
    track [] (db_query head name result len).events = some [] := by
  obtain ⟨h1, _⟩ := search_track name 0 head [] []
  unfold db_query
  cases hs : (search name head [] 0).result with
  | none =>
    simp only [hs, track_lock_node, track_append, h1, search_held, Option.some_bind]
    exact track_tail_none _
  | some t =>
    simp only [hs, track_lock_node, track_append, h1, search_held, Option.some_bind]
    exact track_tail_some _ _

theorem db_add_balanced (head : Tree) (name value : CString) (mem : Alloc) :
    track [] (db_add head name value mem).events = some [] := by
  obtain ⟨h1, _⟩ := search_track name 1 head [] []
  unfold db_add
  cases hs : (search name head [] 1).result with
  | none =>
    simp only [hs, track_lock_node, track_append, h1, search_held, Option.some_bind]
    exact track_tail_none _
  | some t =>
    simp only [hs, track_lock_node, track_append, h1, search_held, Option.some_bind]
    exact track_tail_some _ _

theorem db_remove_balanced (head : Tree) (name : CString) (mem : Alloc) (d : Ret Int)
    (hd : db_remove head name mem = some d) : track [] d.events = some [] := by
  obtain ⟨h1, h2⟩ := search_track name 1 head [] []
  unfold db_remove at hd
  cases hs : (search name head [] 1).result with
  | none =>
    simp only [hs, Option.some.injEq] at hd
    rw [← hd]
    simp only [track_lock_node, track_append, h1, search_held, hs, Option.some_bind]
    exact track_tail_none _
  | some t =>
    obtain ⟨e, he⟩ := h2 t hs
    have hne : t ≠ (search name head [] 1).parent := by
      rw [he]; exact snoc_ne_self _ _
    simp only [hs] at hd
    split at hd
    · simp only [Option.some.injEq] at hd
      rw [← hd]
      simp only [List.cons_append, track_lock_node, track_append, h1, search_held, hs,
        Option.some_bind]
      exact track_tail_destroy _ _ hne
    · split at hd
      · simp only [Option.some.injEq] at hd
        rw [← hd]
        simp only [List.cons_append, track_lock_node, track_append, h1, search_held, hs,
          Option.some_bind]
        exact track_tail_destroy _ _ hne
      · split at hd
        · exact Option.noConfusion hd
        · simp only [Option.some.injEq] at hd
          rw [← hd]
          simp only [List.cons_append, track_lock_node, track_append, h1, search_held, hs,
            Option.some_bind, loop_track]
          have hl := loop_next (head.get t).rchild (t ++ [Dir.R]) (t, Dir.R)
          apply track_tail_walk
          · rw [hl]
            intro h
            have := congrArg List.length h
            simp at this
          · rw [hl, he]
            intro h
            have := congrArg List.length h
            simp at this

theorem db_print_balanced (head : Tree) (filename : Option CString) (fopen_ok : Bool) :
    track [] (db_print head filename fopen_ok).events = some [] := by
  have hp : track [] (lock_node [] 0 :: (db_print_recurs head [] 0).2 ++ [Event.unlock []])
      = some [] := by
    simp only [List.cons_append, track_lock_node, track_append, print_track,
      Option.some_bind]
    exact track_tail_none _
  unfold db_print
  cases filename with
  | none => exact hp
  | some f =>
    simp only
    split
    · exact hp
    · split
      · simp [track_lock_node, track]
      · exact hp

/-- C16: for every tree and every argument, the lock events of `db_query`, `db_add`,
`db_remove` and `db_print` are balanced: followed from no lock held, every release is of a
lock held at that moment, no node is destroyed while its lock is held, and no lock is held
when the call returns. -/
theorem db_calls_lock_balanced (head : Tree) (name value result : CString) (len : Nat)
    (mem : Alloc) (filename : Option CString) (fopen_ok : Bool) :
    track [] (db_query head name result len).events = some []
    ∧ track [] (db_add head name value mem).events = some []
    ∧ (∀ d, db_remove head name mem = some d → track [] d.events = some [])
    ∧ track [] (db_print head filename fopen_ok).events = some [] :=
  ⟨db_query_balanced head name result len, db_add_balanced head name value mem,
    fun d hd => db_remove_balanced head name mem d hd,
    db_print_balanced head filename fopen_ok⟩

/-- C16, on scenario S2: the removal of `m` returns and its events are balanced. -/
theorem db_calls_lock_balanced_witness :
    ∃ d, db_remove S2_tree (lit "m") Alloc.ok = some d ∧ track [] d.events = some [] :=
  have hs : (db_remove S2_tree (lit "m") Alloc.ok).isSome = true := by decide
  match h : db_remove S2_tree (lit "m") Alloc.ok with
  | some d =>
    ⟨d, rfl, (db_calls_lock_balanced S2_tree (lit "m") [] [] 512 Alloc.ok none true).2.2.1 d h⟩
  | none => absurd hs (by rw [h]; decide)

/-- C14, the code on the store that holds `m` with left child `c`: `db_print` takes the read
locks of the sentinel, of `m` and of `c`, and releases them in the reverse order, each node's
lock only after the traversal of its children has returned and the child's lock has been
released. -/
theorem db_print_keeps_parent_locked :
    (db_print (Tree.node [] [] Tree.null
        (Tree.node (lit "m") (lit "1")
          (Tree.node (lit "c") (lit "2") Tree.null Tree.null) Tree.null)) none true).events
      = [Event.rdlock [], Event.rdlock [Dir.R], Event.rdlock [Dir.R, Dir.L],
          Event.unlock [Dir.R, Dir.L], Event.unlock [Dir.R], Event.unlock []] := by
  decide

theorem lock_node_ne_destroy (p q : Ptr) (lt : Nat) : lock_node p lt ≠ Event.destroy q := by
  unfold lock_node; split <;> simp

theorem search_no_destroy (k : CString) (lt : Nat) (t : Tree) : ∀ (addr q : Ptr),
    Event.destroy q ∉ (search k t addr lt).events := by
  induction t with
  | null => intro addr q; simp [search]
  | node n v l r ihl ihr =>
    intro addr q
    rw [search_node]
    cases hd : route k n with
    | L =>
      simp only [Tree.child, lchild_node]
      cases l with
      | null => simp
      | node cn cv cl cr =>
        simp only
        split
        · simp [(lock_node_ne_destroy _ q lt).symm]
        · simp [(lock_node_ne_destroy _ q lt).symm, ihl]
    | R =>
      simp only [Tree.child, rchild_node]
      cases r with
      | null => simp
      | node cn cv cl cr =>
        simp only
        split
        · simp [(lock_node_ne_destroy _ q lt).symm]
        · simp [(lock_node_ne_destroy _ q lt).symm, ihr]

theorem loop_no_destroy (x : Tree) : ∀ (addr : Ptr) (pn : Ptr × Dir) (q : Ptr),
    Event.destroy q ∉ (db_remove_loop x addr pn).events := by
  induction x with
  | null => intro addr pn q; simp [db_remove_loop]
  | node n v l r ihl _ =>
    intro addr pn q
    cases l with
    | null => simp [db_remove_loop]
    | node ln lv ll lr =>
      rw [db_remove_loop.eq_def]
      simp [(lock_node_ne_destroy _ q 1).symm, ihl]

theorem print_no_destroy (t : Tree) : ∀ (addr : Ptr) (lvl : Nat) (q : Ptr),
    Event.destroy q ∉ (db_print_recurs t addr lvl).2 := by
  induction t with
  | null => intro addr lvl q; simp [db_print_recurs]
  | node n v l r ihl ihr =>
    intro addr lvl q
    simp only [db_print_recurs]
    cases l <;> cases r <;>
      simp [(lock_node_ne_destroy _ q 0).symm, ihl, ihr]

theorem insert_node_ne_null (k : CString) (x : Tree) (cn cv : CString) (cl cr : Tree) :
    bst_insert k x (Tree.node cn cv cl cr) ≠ Tree.null := by
  simp only [bst_insert]
  split
  · simp
  · split <;> simp

theorem setc_kept (n v : CString) (l r : Tree) (d : Dir) (x : Tree)
    (h : x = Tree.null ↔ (Tree.node n v l r).child d = Tree.null) :
    ((Tree.node n v l r).setc d x).name = n ∧ ((Tree.node n v l r).setc d x).value = v
      ∧ ∀ e : Dir, (((Tree.node n v l r).setc d x).child e = Tree.null
          ↔ (Tree.node n v l r).child e = Tree.null) := by
  cases d
  · refine ⟨rfl, rfl, fun e => ?_⟩
    cases e
    · exact h
    · exact Iff.rfl
  · refine ⟨rfl, rfl, fun e => ?_⟩
    cases e
    · exact Iff.rfl
    · exact h

theorem search_root_child (k n v : CString) (l r : Tree) (lt : Nat) :
    ((Tree.node n v l r).child (route k n) = Tree.null →
        (search k (Tree.node n v l r) [] lt).result = none
          ∧ (search k (Tree.node n v l r) [] lt).parent = [])
    ∧ (∀ cn cv cl cr, (Tree.node n v l r).child (route k n) = Tree.node cn cv cl cr →
        strcmp k cn = 0 →
        (search k (Tree.node n v l r) [] lt).result = some [route k n]
          ∧ (search k (Tree.node n v l r) [] lt).parent = [])
    ∧ (∀ cn cv cl cr, (Tree.node n v l r).child (route k n) = Tree.node cn cv cl cr →
        strcmp k cn ≠ 0 →
        ∃ e q, (search k (Tree.node n v l r) [] lt).parent = e :: q) := by
  refine ⟨?_, ?_, ?_⟩
  · intro hc
    rw [search_node, hc]
    exact ⟨rfl, rfl⟩
  · intro cn cv cl cr hc h0
    rw [search_node, hc]
    simp [h0]
  · intro cn cv cl cr hc h0
    exact ⟨_, _, (search_step k n v l r cn cv cl cr lt hc h0).2⟩

theorem db_query_no_destroy (head : Tree) (name result : CString) (len : Nat) (q : Ptr) :
    Event.destroy q ∉ (db_query head name result len).events := by
  unfold db_query
  cases hs : (search name head [] 0).result <;>
    simp [hs, (lock_node_ne_destroy _ q 0).symm, search_no_destroy]

theorem db_add_no_destroy (head : Tree) (name value : CString) (mem : Alloc) (q : Ptr) :
    Event.destroy q ∉ (db_add head name value mem).events := by
  unfold db_add
  cases hs : (search name head [] 1).result <;>
    simp [hs, (lock_node_ne_destroy _ q 1).symm, search_no_destroy]

theorem db_print_no_destroy (head : Tree) (filename : Option CString) (fopen_ok : Bool)
    (q : Ptr) : Event.destroy q ∉ (db_print head filename fopen_ok).events := by
  unfold db_print
  cases filename with
  | none => simp [(lock_node_ne_destroy _ q 0).symm, print_no_destroy]
  | some f =>
    simp only
    split
    · simp [(lock_node_ne_destroy _ q 0).symm, print_no_destroy]
    · split <;> simp [(lock_node_ne_destroy _ q 0).symm, print_no_destroy]

theorem db_remove_destroy (head : Tree) (name : CString) (mem : Alloc) (d : Ret Int)
    (hd : db_remove head name mem = some d) (e : Dir) (he : Event.destroy [e] ∈ d.events) :
    ∃ t, (search name head [] 1).result = some t ∧ (search name head [] 1).parent = []
      ∧ ((head.get t).lchild = Tree.null ∨ (head.get t).rchild = Tree.null) := by
  obtain ⟨_, h2⟩ := search_track name 1 head [] []
  unfold db_remove at hd
  cases hs : (search name head [] 1).result with
  | none =>
    simp only [hs, Option.some.injEq] at hd
    rw [← hd] at he
    simp [(lock_node_ne_destroy _ [e] 1).symm, search_no_destroy] at he
  | some t =>
    obtain ⟨e1, ht⟩ := h2 t hs
    have hpar : t = [e] → (search name head [] 1).parent = [] := by
      intro h
      rw [h] at ht
      have := congrArg List.length ht
      simp at this
      exact this
    simp only [hs] at hd
    split at hd
    · rename_i hr
      simp only [Option.some.injEq] at hd
      rw [← hd] at he
      simp [(lock_node_ne_destroy _ [e] 1).symm, search_no_destroy] at he
      exact ⟨t, rfl, hpar he.symm, Or.inr hr⟩
    · split at hd
      · rename_i hl
        simp only [Option.some.injEq] at hd
        rw [← hd] at he
        simp [(lock_node_ne_destroy _ [e] 1).symm, search_no_destroy] at he
        exact ⟨t, rfl, hpar he.symm, Or.inl hl⟩
      · split at hd
        · exact Option.noConfusion hd
        · simp only [Option.some.injEq] at hd
          rw [← hd] at he
          have hl := loop_next (head.get t).rchild (t ++ [Dir.R]) (t, Dir.R)
          simp [(lock_node_ne_destroy _ [e] 1).symm, search_no_destroy, loop_no_destroy,
            hl] at he
          have := congrArg List.length he
          rw [ht] at this
          simp at this
          omega

/-- C15 fails as stated: on the store that holds the single node `m`, `db_remove(m)` writes
the sentinel's right link, which is not null before the call and null after it. -/
theorem db_remove_rewrites_root_link :
    (Tree.node [] [] Tree.null (Tree.node (lit "m") (lit "1") Tree.null Tree.null)).rchild
        ≠ Tree.null
    ∧ (db_remove (Tree.node [] [] Tree.null
          (Tree.node (lit "m") (lit "1") Tree.null Tree.null)) (lit "m") Alloc.ok).map
        (fun d => (d.val, d.head.rchild)) = some (1, Tree.null) := by
  decide

/-- C15 as amended: for every store state, the sentinel's fields are the same after a call
as before it (`sentinel_kept`) for every `db_query`; for every `db_add` unless it links its
new node as a direct child of the root (the name is absent and `search` returns the sentinel
as parent); for every `db_remove` that returns unless it removes a direct child of the root
that has fewer than two children.  `db_print` changes no tree and destroys no node. -/
theorem sentinel_fields_kept (hn hv : CString) (l r : Tree) (name value result : CString)
    (len : Nat) (mem : Alloc) (filename : Option CString) (fopen_ok : Bool) :
    sentinel_kept (Tree.node hn hv l r) (db_query (Tree.node hn hv l r) name result len).head
        (db_query (Tree.node hn hv l r) name result len).events
    ∧ (¬ ((search name (Tree.node hn hv l r) [] 1).result = none
          ∧ (search name (Tree.node hn hv l r) [] 1).parent = []) →
        sentinel_kept (Tree.node hn hv l r)
          (db_add (Tree.node hn hv l r) name value mem).head
          (db_add (Tree.node hn hv l r) name value mem).events)
    ∧ (∀ d, db_remove (Tree.node hn hv l r) name mem = some d →
        ¬ (∃ t, (search name (Tree.node hn hv l r) [] 1).result = some t
            ∧ (search name (Tree.node hn hv l r) [] 1).parent = []
            ∧ (((Tree.node hn hv l r).get t).lchild = Tree.null
              ∨ ((Tree.node hn hv l r).get t).rchild = Tree.null)) →
        sentinel_kept (Tree.node hn hv l r) d.head d.events)
    ∧ (∀ q, Event.destroy q ∉ (db_print (Tree.node hn hv l r) filename fopen_ok).events) := by
  obtain ⟨s1, s2, s3⟩ := search_root_child name hn hv l r 1
  refine ⟨?_, ?_, ?_, fun q => db_print_no_destroy _ _ _ q⟩
  · rw [db_query_head]
    exact ⟨rfl, rfl, fun e => ⟨Iff.rfl, db_query_no_destroy _ _ _ _ _⟩⟩
  · intro hx
    have ha := (db_add_eq name value mem _ hn hv l r rfl).2
    cases hc : (Tree.node hn hv l r).child (route name hn) with
    | null => exact absurd (s1 hc) hx
    | node cn cv cl cr =>
      rw [ha, hc]
      obtain ⟨k1, k2, k3⟩ := setc_kept hn hv l r (route name hn)
        (bst_insert name (node_constructor name value Tree.null Tree.null mem)
          (Tree.node cn cv cl cr))
        ⟨fun h => absurd h (insert_node_ne_null _ _ _ _ _ _), fun h => by
          rw [hc] at h; exact Tree.noConfusion h⟩
      exact ⟨k1, k2, fun e => ⟨k3 e, db_add_no_destroy _ _ _ _ _⟩⟩
  · intro d hd hx
    have hnd : ∀ e : Dir, Event.destroy [e] ∉ d.events := fun e he =>
      hx (db_remove_destroy _ name mem d hd e he)
    have he := db_remove_eq name mem _ hn hv l r rfl
    rw [hd] at he
    cases hb : bst_delete name mem ((Tree.node hn hv l r).child (route name hn)) with
    | none => simp [hb] at he
    | some c1 =>
      simp only [hb, Option.map_some', Option.some.injEq, Prod.mk.injEq] at he
      rw [he.2]
      have hiff : c1 = Tree.null ↔ (Tree.node hn hv l r).child (route name hn) = Tree.null := by
        cases hc : (Tree.node hn hv l r).child (route name hn) with
        | null =>
          rw [hc] at hb
          simp only [bst_delete, Option.some.injEq] at hb
          simp [← hb]
        | node cn cv cl cr =>
          rw [hc] at hb
          simp only [bst_delete] at hb
          simp only [reduceCtorEq, iff_false]
          by_cases h0 : strcmp name cn = 0
          · obtain ⟨r1, r2⟩ := s2 cn cv cl cr hc h0
            have hg : (Tree.node hn hv l r).get [route name hn] = Tree.node cn cv cl cr := by
              simp [Tree.get, hc]
            have hboth : ¬ (cl = Tree.null ∨ cr = Tree.null) := by
              intro hor
              exact hx ⟨_, r1, r2, by rw [hg]; exact hor⟩
            simp only [h0, if_true, del_root] at hb
            have hcl : ¬ cl = Tree.null := fun h => hboth (Or.inl h)
            have hcr : ¬ cr = Tree.null := fun h => hboth (Or.inr h)
            simp only [hcl, hcr, if_false] at hb
            split at hb
            · exact Option.noConfusion hb
            · simp only [Option.some.injEq] at hb
              rw [← hb]; simp
          · simp only [h0, if_false] at hb
            split at hb
            · cases hdl : bst_delete name mem cl with
              | none => simp [hdl] at hb
              | some x => simp only [hdl, Option.map_some', Option.some.injEq] at hb; simp [← hb]
            · cases hdr : bst_delete name mem cr with
              | none => simp [hdr] at hb
              | some x => simp only [hdr, Option.map_some', Option.some.injEq] at hb; simp [← hb]
      obtain ⟨k1, k2, k3⟩ := setc_kept hn hv l r (route name hn) c1 hiff
      exact ⟨k1, k2, fun e => ⟨k3 e, hnd e⟩⟩

/-- C15 as amended, on the tree of scenario S2 and the absent name `b`, which `db_add` links
below `a`, not below the sentinel. -/
theorem sentinel_fields_kept_witness :
    ¬ ((search (lit "b") (Tree.node [] [] Tree.null S2_tree.rchild) [] 1).result = none
        ∧ (search (lit "b") (Tree.node [] [] Tree.null S2_tree.rchild) [] 1).parent = [])
    ∧ sentinel_kept (Tree.node [] [] Tree.null S2_tree.rchild)
        (db_add (Tree.node [] [] Tree.null S2_tree.rchild) (lit "b") (lit "8") Alloc.ok).head
        (db_add (Tree.node [] [] Tree.null S2_tree.rchild) (lit "b") (lit "8") Alloc.ok).events :=
  ⟨by decide,
    (sentinel_fields_kept [] [] Tree.null S2_tree.rchild (lit "b") (lit "8") [] 512 Alloc.ok
      none true).2.1 (by decide)⟩

/-! ### the client list -/

theorem chain_det (client : Nat → client_t) (L : List Nat) : ∀ (p : Option Nat) (M : List Nat),
    chain client p L → chain client p M → L = M := by
  induction L with
  | nil =>
    intro p M h1 h2
    cases M with
    | nil => rfl
    | cons b M =>
      simp only [chain] at h1 h2
      rw [h1] at h2
      exact Option.noConfusion h2.1
  | cons a L ih =>
    intro p M h1 h2
    cases M with
    | nil =>
      simp only [chain] at h1 h2
      rw [h2] at h1
      exact Option.noConfusion h1.1
    | cons b M =>
      simp only [chain] at h1 h2
      have e : a = b := by
        have := h1.1.symm.trans h2.1
        exact Option.some.inj this
      subst e
      rw [ih _ M h1.2 h2.2]

theorem chain_suffix (client : Nat → client_t) (L : List Nat) : ∀ (p : Option Nat) (a : Nat),
    chain client p L → a ∈ L →
    ∃ L1 L2, L = L1 ++ a :: L2 ∧ chain client (client a).next L2 := by
  induction L with
  | nil => intro p a _ h; simp at h
  | cons b L ih =>
    intro p a hc ha
    simp only [chain] at hc
    simp only [List.mem_cons] at ha
    rcases ha with rfl | ha
    · exact ⟨[], L, rfl, hc.2⟩
    · obtain ⟨L1, L2, e, h⟩ := ih _ a hc.2 ha
      exact ⟨b :: L1, L2, by rw [e]; rfl, h⟩

theorem chain_nodup (client : Nat → client_t) (L : List Nat) : ∀ (p : Option Nat),
    chain client p L → L.Nodup := by
  induction L with
  | nil => intro _ _; exact List.nodup_nil
  | cons a L ih =>
    intro p hc
    simp only [chain] at hc
    refine List.nodup_cons.2 ⟨?_, ih _ hc.2⟩
    intro ha
    obtain ⟨L1, L2, e, h⟩ := chain_suffix client L _ a hc.2 ha
    have := chain_det client L _ L2 hc.2 h
    rw [this] at e
    have hl := congrArg List.length e
    simp at hl
    omega

theorem chain_of_dchain (client : Nat → client_t) (L : List Nat) : ∀ (q p : Option Nat),
    dchain client q p L →
    chain client p L ∧ (∀ a, p = some a → (client a).prev = q)
      ∧ ∀ x ∈ L, ∀ y, (client x).next = some y → (client y).prev = some x := by
  induction L with
  | nil =>
    intro q p h
    simp only [dchain] at h
    refine ⟨h, ?_, ?_⟩
    · intro a ha; rw [h] at ha; exact Option.noConfusion ha
    · intro x hx; simp at hx
  | cons a L ih =>
    intro q p h
    simp only [dchain] at h
    obtain ⟨i1, i2, i3⟩ := ih _ _ h.2.2
    refine ⟨⟨h.1, i1⟩, ?_, ?_⟩
    · intro b hb
      rw [h.1] at hb
      rw [← Option.some.inj hb]
      exact h.2.1
    · intro x hx y hy
      simp only [List.mem_cons] at hx
      rcases hx with rfl | hx
      · exact i2 y hy
      · exact i3 x hx y hy

theorem dchain_of_chain (client : Nat → client_t) (L : List Nat) : ∀ (q p : Option Nat),
    chain client p L → (∀ a, p = some a → (client a).prev = q) →
    (∀ x ∈ L, ∀ y, (client x).next = some y → (client y).prev = some x) →
    dchain client q p L := by
  induction L with
  | nil => intro q p h _ _; exact h
  | cons a L ih =>
    intro q p h h1 h2
    simp only [chain] at h
    refine ⟨h.1, h1 a h.1, ih _ _ h.2 ?_ ?_⟩
    · intro b hb
      exact h2 a (by simp) b hb
    · intro x hx y hy
      exact h2 x (by simp [hx]) y hy

theorem dchain_frame (client client1 : Nat → client_t) (L : List Nat)
    (h : ∀ x ∈ L, client1 x = client x) : ∀ (q p : Option Nat),
    dchain client q p L → dchain client1 q p L := by
  induction L with
  | nil => intro q p hd; exact hd
  | cons a L ih =>
    intro q p hd
    simp only [dchain] at hd ⊢
    have ha := h a (by simp)
    rw [ha]
    exact ⟨hd.1, hd.2.1, ih (fun x hx => h x (by simp [hx])) _ _ hd.2.2⟩

theorem dchain_nodup (client : Nat → client_t) (L : List Nat) (q p : Option Nat)
    (h : dchain client q p L) : L.Nodup :=
  chain_nodup client L p (chain_of_dchain client L q p h).1

theorem last_client_spec (client : Nat → client_t) (L : List Nat) : ∀ (a fuel : Nat),
    chain client (client a).next L → L.length < fuel →
    last_client client fuel a = (a :: L).getLast? := by
  induction L with
  | nil =>
    intro a fuel hc hf
    simp only [chain] at hc
    cases fuel with
    | zero => simp at hf
    | succ n => simp [last_client, hc]
  | cons b L ih =>
    intro a fuel hc hf
    simp only [chain] at hc
    cases fuel with
    | zero => simp at hf
    | succ n =>
      simp only [last_client, hc.1, List.getLast?_cons_cons]
      exact ih b n hc.2 (by simp at hf; omega)

theorem enroll_dchain (client : Nat → client_t) (c : Nat) (hc : (client c).next = none)
    (L : List Nat) : ∀ (q p : Option Nat) (last : Nat),
    dchain client q p L → L.getLast? = some last → c ∉ L →
    dchain (Function.update
        (Function.update client last { client last with next := some c }) c
        { (Function.update client last { client last with next := some c }) c with
          prev := some last }) q p (L ++ [c]) := by
  induction L with
  | nil => intro q p last _ h; simp at h
  | cons a L ih =>
    intro q p last hd hl hcn
    have hnd := dchain_nodup client _ q p hd
    simp only [List.mem_cons, not_or] at hcn
    have hac : a ≠ c := fun e => hcn.1 e.symm
    simp only [dchain] at hd
    cases L with
    | nil =>
      simp only [List.getLast?_singleton, Option.some.injEq] at hl
      subst hl
      simp only [dchain] at hd
      simp only [List.nil_append, List.cons_append, dchain, Function.update_apply, hac,
        if_false, if_true, hd.1, hd.2.1, and_self, true_and]
      have hca : ¬ c = a := fun e => hac e.symm
      simp [hca, hc]
    | cons b T =>
      rw [List.getLast?_cons_cons] at hl
      have hlast : last ∈ b :: T := List.mem_of_getLast?_eq_some hl
      have hal : a ≠ last := by
        intro e
        rw [List.nodup_cons] at hnd
        exact hnd.1 (e ▸ hlast)
      have ih2 := ih (some a) (client a).next last hd.2.2 hl hcn.2
      simp only [List.cons_append, dchain] at ih2 ⊢
      refine ⟨hd.1, ?_, ?_⟩
      · simp only [Function.update_apply, hac, hal, if_false]
        exact hd.2.1
      · have e : (Function.update
            (Function.update client last { client last with next := some c }) c
            { (Function.update client last { client last with next := some c }) c with
              prev := some last } a).next = (client a).next := by
          simp only [Function.update_apply, hac, hal, if_false]
        rw [e]
        exact ih2

theorem run_client_spec (s : Server) (L : List Nat) (c fuel : Nat)
    (hd : dchain s.client none s.thread_list_head L) (hs : s.server_stopped ≠ 1)
    (hc : c ∉ L) (hrec : s.client c = ⟨none, none⟩) (hf : L.length ≤ fuel) :
    ∃ s1, run_client s c fuel = some s1
      ∧ dchain s1.client none s1.thread_list_head (L ++ [c])
      ∧ s1.num_client_threads = s.num_client_threads
      ∧ s1.server_stopped = s.server_stopped
      ∧ ∀ x, x ∉ L → x ≠ c → s1.client x = s.client x := by
  have hcn : (s.client c).next = none := by rw [hrec]
  have hcp : (s.client c).prev = none := by rw [hrec]
  unfold run_client
  simp only [hs, if_false]
  cases L with
  | nil =>
    simp only [dchain] at hd
    simp only [hd]
    exact ⟨_, rfl, ⟨rfl, hcp, hcn⟩, rfl, rfl, fun _ _ _ => rfl⟩
  | cons a T =>
    have hd0 := hd
    simp only [dchain] at hd
    have hch := (chain_of_dchain s.client T _ _ hd.2.2).1
    have hlast := last_client_spec s.client T a fuel hch (by simpa using hf)
    obtain ⟨last, hl⟩ : ∃ last, (a :: T).getLast? = some last := by
      cases h : (a :: T).getLast? with
      | none => simp at h
      | some x => exact ⟨x, rfl⟩
    simp only [hd.1, hlast, hl]
    refine ⟨_, rfl, enroll_dchain s.client c hcn (a :: T) none (some a) last
      (by rw [← hd.1]; exact hd0) hl hc, rfl, rfl, ?_⟩
    intro x hx hxc
    have hxl : x ≠ last := fun e => hx (e ▸ List.mem_of_getLast?_eq_some hl)
    simp only [Function.update_apply, hxc, hxl, if_false]

theorem last_client_some (client : Nat → client_t) (L : List Nat) : ∀ (a fuel x : Nat),
    chain client (client a).next L → last_client client fuel a = some x →
    (a :: L).getLast? = some x := by
  induction L with
  | nil =>
    intro a fuel x hc hr
    simp only [chain] at hc
    cases fuel with
    | zero => simp [last_client] at hr
    | succ n => simpa [last_client, hc] using hr
  | cons b L ih =>
    intro a fuel x hc hr
    simp only [chain] at hc
    cases fuel with
    | zero => simp [last_client] at hr
    | succ n =>
      simp only [last_client, hc.1] at hr
      rw [List.getLast?_cons_cons]
      exact ih b n x hc.2 hr

theorem run_client_some (s s1 : Server) (L : List Nat) (c fuel : Nat)
    (hd : dchain s.client none s.thread_list_head L) (hs : s.server_stopped ≠ 1)
    (hc : c ∉ L) (hrec : s.client c = ⟨none, none⟩)
    (hr : run_client s c fuel = some s1) :
    dchain s1.client none s1.thread_list_head (L ++ [c])
      ∧ s1.num_client_threads = s.num_client_threads
      ∧ s1.server_stopped = s.server_stopped
      ∧ ∀ x, x ∉ L → x ≠ c → s1.client x = s.client x := by
  have hcn : (s.client c).next = none := by rw [hrec]
  have hcp : (s.client c).prev = none := by rw [hrec]
  unfold run_client at hr
  simp only [hs, if_false] at hr
  cases L with
  | nil =>
    simp only [dchain] at hd
    simp only [hd, Option.some.injEq] at hr
    subst hr
    exact ⟨⟨rfl, hcp, hcn⟩, rfl, rfl, fun _ _ _ => rfl⟩
  | cons a T =>
    have hd0 := hd
    simp only [dchain] at hd
    have hch := (chain_of_dchain s.client T _ _ hd.2.2).1
    simp only [hd.1] at hr
    cases hlc : last_client s.client fuel a with
    | none => simp [hlc] at hr
    | some last =>
      have hl := last_client_some s.client T a fuel last hch hlc
      simp only [hlc, Option.some.injEq] at hr
      subst hr
      refine ⟨enroll_dchain s.client c hcn (a :: T) none (some a) last
        (by rw [← hd.1]; exact hd0) hl hc, rfl, rfl, ?_⟩
      intro x hx hxc
      have hxl : x ≠ last := fun e => hx (e ▸ List.mem_of_getLast?_eq_some hl)
      simp only [Function.update_apply, hxc, hxl, if_false]

theorem run_client_stopped (s : Server) (c fuel : Nat) (hs : s.server_stopped = 1) :
    run_client s c fuel = some { s with num_client_threads := s.num_client_threads - 1 } := by
  unfold run_client
  simp [hs]

theorem unlinked_dchain (client : Nat → client_t) (c : Nat) (L : List Nat) :
    ∀ (q p : Option Nat) (a : Nat), dchain client q p (a :: L) → c ∈ L →
    ∃ pc, (client c).prev = some pc
      ∧ dchain (unlinked client c pc) q p ((a :: L).erase c)
      ∧ ∀ x, x ∉ a :: L → unlinked client c pc x = client x := by
  induction L with
  | nil => intro q p a _ h; simp at h
  | cons b U ih =>
    intro q p a hd hc
    have hnd := dchain_nodup client _ q p hd
    have hac : a ≠ c := by
      intro e
      rw [List.nodup_cons] at hnd
      exact hnd.1 (e ▸ hc)
    have hab : a ≠ b := by
      intro e
      rw [List.nodup_cons] at hnd
      exact hnd.1 (by simp [e])
    have haU : a ∉ U := by
      intro e
      rw [List.nodup_cons] at hnd
      exact hnd.1 (by simp [e])
    have hbU : b ∉ U := by
      rw [List.nodup_cons, List.nodup_cons] at hnd
      exact hnd.2.1
    simp only [dchain] at hd
    by_cases hbc : b = c
    · subst hbc
      refine ⟨a, hd.2.2.2.1, ?_, ?_⟩
      · have he : (a :: b :: U).erase b = a :: U := by
          simp [List.erase_cons, hab]
        rw [he]
        cases U with
        | nil =>
          have hn : (client b).next = none := by simpa [dchain] using hd.2.2.2.2
          simp only [unlinked, hn, dchain, Function.update_same]
          exact ⟨hd.1, hd.2.1, trivial⟩
        | cons d V =>
          have h3 := hd.2.2.2.2
          simp only [dchain] at h3
          have had : a ≠ d := fun e => haU (by simp [e])
          have hdV : d ∉ V := by
            have := dchain_nodup client _ _ _ hd.2.2.2.2
            rw [List.nodup_cons] at this
            exact this.1
          simp only [unlinked, h3.1, dchain, Function.update_apply, had, if_false, if_true]
          refine ⟨hd.1, hd.2.1, trivial, ?_, ?_⟩
          · simp
          · have hda : ¬ d = a := fun e => had e.symm
            simp only [hda, if_false]
            refine dchain_frame client _ V ?_ _ _ h3.2.2
            intro x hx
            have hxa : x ≠ a := fun e => haU (by simp [← e, hx])
            have hxd : x ≠ d := fun e => hdV (e ▸ hx)
            simp only [Function.update_apply, hxa, hxd, if_false]
      · intro x hx
        simp only [List.mem_cons, not_or] at hx
        cases hn : (client b).next with
        | none => simp only [unlinked, hn, Function.update_apply, hx.1, if_false]
        | some nx =>
          have hmem : nx ∈ U := by
            have h3 := hd.2.2.2.2
            rw [hn] at h3
            cases U with
            | nil => simp [dchain] at h3
            | cons d V =>
              simp only [dchain] at h3
              simp [Option.some.inj h3.1]
          have hxn : x ≠ nx := fun e => hx.2.2 (e ▸ hmem)
          simp only [unlinked, hn, Function.update_apply, hx.1, hxn, if_false]
    · have hcU : c ∈ U := by
        simp only [List.mem_cons] at hc
        rcases hc with e | h
        · exact absurd e.symm hbc
        · exact h
      obtain ⟨pc, hpc, hdc, hfr⟩ := ih (some a) (client a).next b hd.2.2 hcU
      refine ⟨pc, hpc, ?_, ?_⟩
      · have he : (a :: b :: U).erase c = a :: (b :: U).erase c := by
          rw [List.erase_cons_tail]
          simpa using hac
        rw [he]
        have hau : unlinked client c pc a = client a := by
          apply hfr
          simp only [List.mem_cons, not_or]
          exact ⟨hab, haU⟩
        simp only [dchain, hau]
        exact ⟨hd.1, hd.2.1, hdc⟩
      · intro x hx
        apply hfr
        simp only [List.mem_cons, not_or] at hx ⊢
        exact hx.2

theorem thread_cleanup_spec (s : Server) (L : List Nat) (c : Nat)
    (hd : dchain s.client none s.thread_list_head L) (hc : c ∈ L) :
    ∃ s1, thread_cleanup s c = some s1
      ∧ dchain s1.client none s1.thread_list_head (L.erase c)
      ∧ s1.num_client_threads = s.num_client_threads - 1
      ∧ s1.server_stopped = s.server_stopped
      ∧ ∀ x, x ∉ L → s1.client x = s.client x := by
  cases L with
  | nil => simp at hc
  | cons a T =>
    have hnd := dchain_nodup s.client _ _ _ hd
    have hd0 := hd
    simp only [dchain] at hd
    by_cases hac : a = c
    · subst hac
      have he : (a :: T).erase a = T := by simp
      rw [he]
      unfold thread_cleanup
      simp only [hd.1, if_true]
      cases T with
      | nil =>
        have hn : (s.client a).next = none := by simpa [dchain] using hd.2.2
        simp only [hn]
        exact ⟨_, rfl, rfl, rfl, rfl, fun _ _ => rfl⟩
      | cons d V =>
        have h3 := hd.2.2
        simp only [dchain] at h3
        have hdV : d ∉ V := by
          have := dchain_nodup s.client _ _ _ hd.2.2
          rw [List.nodup_cons] at this
          exact this.1
        simp only [h3.1]
        refine ⟨_, rfl, ?_, rfl, rfl, ?_⟩
        · simp only [dchain, Function.update_same, true_and]
          refine dchain_frame s.client _ V ?_ _ _ h3.2.2
          intro x hx
          have hxd : x ≠ d := fun e => hdV (e ▸ hx)
          simp only [Function.update_apply, hxd, if_false]
        · intro x hx
          simp only [List.mem_cons, not_or] at hx
          simp only [Function.update_apply, hx.2.1, if_false]
    · have hcT : c ∈ T := by
        simp only [List.mem_cons] at hc
        rcases hc with e | h
        · exact absurd e.symm hac
        · exact h
      obtain ⟨pc, hpc, hdc, hfr⟩ := unlinked_dchain s.client c T none s.thread_list_head a hd0 hcT
      have hhead : ¬ s.thread_list_head = some c := by
        rw [hd.1]
        intro e
        exact hac (Option.some.inj e)
      have hrun : thread_cleanup s c = some { s with
          client := unlinked s.client c pc
          num_client_threads := s.num_client_threads - 1 } := by
        unfold thread_cleanup
        simp only [hhead, if_false, hpc, Function.update_same]
        cases hn : (s.client c).next with
        | none => simp only [unlinked, hn]
        | some nx => simp only [unlinked, hn]
      exact ⟨_, hrun, hdc, rfl, rfl, hfr⟩

/-- C18: reading the registry as the sequence `L` of records reached from `thread_list_head`
through `next` links, of a well-formed doubly-linked list: the enrollment step of `run_client`
(server not stopped, given enough steps for the walk to the tail) applied to a new client `c`
with null links returns with the sequence `L ++ [c]`, and `thread_cleanup` of an enrolled client
`c` returns with the sequence `L` without `c`, the others in their order; after either step the
list is well-formed again. -/
theorem registry_enroll_and_cleanup (s : Server) (L : List Nat) (c fuel : Nat)
    (hL : chain s.client s.thread_list_head L) (hw : well_linked s L) :
    (s.server_stopped ≠ 1 → c ∉ L → s.client c = ⟨none, none⟩ → L.length ≤ fuel →
      ∃ s1, run_client s c fuel = some s1
        ∧ chain s1.client s1.thread_list_head (L ++ [c]) ∧ well_linked s1 (L ++ [c]))
    ∧ (c ∈ L →
      ∃ s1, thread_cleanup s c = some s1
        ∧ chain s1.client s1.thread_list_head (L.filter (fun x => decide (x ≠ c)))
        ∧ well_linked s1 (L.filter (fun x => decide (x ≠ c)))) := by
  have hd : dchain s.client none s.thread_list_head L :=
    dchain_of_chain s.client L none s.thread_list_head hL hw.1 hw.2
  constructor
  · intro hs hc hrec hf
    obtain ⟨s1, hr, _⟩ := run_client_spec s L c fuel hd hs hc hrec hf
    obtain ⟨h1, _⟩ := run_client_some s s1 L c fuel hd hs hc hrec hr
    have h2 := chain_of_dchain s1.client _ _ _ h1
    exact ⟨s1, hr, h2.1, h2.2.1, h2.2.2⟩
  · intro hc
    obtain ⟨s1, hr, h1, _⟩ := thread_cleanup_spec s L c hd hc
    have h2 := chain_of_dchain s1.client _ _ _ h1
    have he : L.filter (fun x => decide (x ≠ c)) = L.erase c := by
      rw [(chain_nodup s.client L _ hL).erase_eq_filter c]
      apply List.filter_congr
      intro x _
      by_cases e : x = c <;> simp [e]
    rw [he]
    exact ⟨s1, hr, h2.1, h2.2.1, h2.2.2⟩

theorem two_clients_chain : chain two_clients.client two_clients.thread_list_head [1, 2] := by
  simp [chain, two_clients]

theorem two_clients_linked : well_linked two_clients [1, 2] := by
  simp [well_linked, two_clients]

theorem registry_enroll_and_cleanup_witness :
    chain two_clients.client two_clients.thread_list_head [1, 2] ∧ well_linked two_clients [1, 2]
      ∧ (∃ s1, run_client two_clients 3 2 = some s1
        ∧ chain s1.client s1.thread_list_head [1, 2, 3] ∧ well_linked s1 [1, 2, 3])
      ∧ ∃ s1, thread_cleanup two_clients 1 = some s1
        ∧ chain s1.client s1.thread_list_head [2] ∧ well_linked s1 [2] :=
  ⟨two_clients_chain, two_clients_linked,
    (registry_enroll_and_cleanup two_clients [1, 2] 3 2 two_clients_chain two_clients_linked).1
      (by decide) (by decide) (by simp [two_clients]) (by decide),
    (registry_enroll_and_cleanup two_clients [1, 2] 1 0 two_clients_chain two_clients_linked).2
      (by decide)⟩

/-! ### the supervisor and the registry as a transition system -/

theorem inv_init : World.init.Inv :=
  ⟨[], rfl, List.Perm.refl _, List.nodup_nil, by intro c hc; simp [World.init] at hc, rfl⟩

theorem inv_construct (w : World) (c : Nat) (h : w.Inv) (h1 : c ∉ w.started)
    (h2 : c ∉ w.serving) :
    World.Inv ⟨client_constructor w.server c, c :: w.started, w.serving⟩ := by
  obtain ⟨L, hd, hp, hn, hs, hk⟩ := h
  have hcL : c ∉ L := fun e => h2 (hp.mem_iff.1 e)
  refine ⟨L, ?_, hp, List.nodup_cons.2 ⟨h1, hn⟩, ?_, ?_⟩
  · refine dchain_frame w.server.client _ L ?_ _ _ hd
    intro x hx
    have hxc : x ≠ c := fun e => hcL (e ▸ hx)
    simp only [client_constructor, Function.update_apply, hxc, if_false]
  · intro x hx
    simp only [List.mem_cons] at hx
    rcases hx with rfl | hx
    · exact ⟨h2, by simp [client_constructor]⟩
    · have hxc : x ≠ c := fun e => h1 (e ▸ hx)
      refine ⟨(hs x hx).1, ?_⟩
      simp only [client_constructor, Function.update_apply, hxc, if_false]
      exact (hs x hx).2
  · simp only [client_constructor, hk, List.length_cons]
    push_cast
    omega

theorem inv_admission (w : World) (c fuel : Nat) (s1 : Server) (h : w.Inv) (h1 : c ∈ w.started)
    (hr : run_client w.server c fuel = some s1) :
    World.Inv ⟨s1, w.started.erase c,
      if w.server.server_stopped = 1 then w.serving else c :: w.serving⟩ := by
  obtain ⟨L, hd, hp, hn, hs, hk⟩ := h
  have hlen : (w.started.erase c).length + 1 = w.started.length := by
    rw [List.length_erase_of_mem h1]
    have : 0 < w.started.length := List.length_pos_of_mem h1
    omega
  have hmem : ∀ x ∈ w.started.erase c, x ∈ w.started ∧ x ≠ c := by
    intro x hx
    exact ⟨List.mem_of_mem_erase hx, ((hn.mem_erase_iff).1 hx).1⟩
  by_cases hst : w.server.server_stopped = 1
  · rw [run_client_stopped w.server c fuel hst] at hr
    have e := Option.some.inj hr
    subst e
    simp only [hst, if_true]
    refine ⟨L, hd, hp, hn.erase c, ?_, ?_⟩
    · intro x hx
      exact hs x (hmem x hx).1
    · show w.server.num_client_threads - 1 = _
      rw [hk, ← hlen]
      push_cast
      omega
  · have hcL : c ∉ L := fun e => (hs c h1).1 (hp.mem_iff.1 e)
    obtain ⟨g1, g2, _, g4⟩ := run_client_some w.server s1 L c fuel hd hst hcL (hs c h1).2 hr
    simp only [hst, if_false]
    refine ⟨L ++ [c], g1, ?_, hn.erase c, ?_, ?_⟩
    · exact (List.perm_append_singleton c L).trans (hp.cons c)
    · intro x hx
      obtain ⟨hx1, hx2⟩ := hmem x hx
      have hxs := (hs x hx1).1
      refine ⟨?_, ?_⟩
      · simp only [List.mem_cons, not_or]
        exact ⟨hx2, hxs⟩
      · rw [g4 x (fun e => hxs (hp.mem_iff.1 e)) hx2]
        exact (hs x hx1).2
    · show s1.num_client_threads = _
      rw [g2, hk, ← hlen, List.length_append]
      simp only [List.length_singleton]
      push_cast
      omega

theorem inv_cleanup (w : World) (c : Nat) (s1 : Server) (h : w.Inv) (h1 : c ∈ w.serving)
    (hr : thread_cleanup w.server c = some s1) :
    World.Inv ⟨s1, w.started, w.serving.erase c⟩ := by
  obtain ⟨L, hd, hp, hn, hs, hk⟩ := h
  have hcL : c ∈ L := hp.mem_iff.2 h1
  obtain ⟨s2, hr2, g1, g2, _, g4⟩ := thread_cleanup_spec w.server L c hd hcL
  rw [hr] at hr2
  have e := Option.some.inj hr2
  subst e
  refine ⟨L.erase c, g1, hp.erase c, hn, ?_, ?_⟩
  · intro x hx
    have hxs := (hs x hx).1
    refine ⟨fun e => hxs (List.mem_of_mem_erase e), ?_⟩
    rw [g4 x (fun e => hxs (hp.mem_iff.1 e))]
    exact (hs x hx).2
  · show s1.num_client_threads = _
    have hlen : (L.erase c).length + 1 = L.length := by
      rw [List.length_erase_of_mem hcL]
      have : 0 < L.length := List.length_pos_of_mem hcL
      omega
    rw [g2, hk, ← hlen]
    push_cast
    omega

theorem inv_step (w w1 : World) (a : Action) (h : w.Inv) (hs : w.step a = some w1) :
    w1.Inv := by
  cases a with
  | construct c =>
    simp only [World.step] at hs
    split at hs
    · exact Option.noConfusion hs
    · rename_i hc
      simp only [not_or] at hc
      have e := Option.some.inj hs
      subst e
      exact inv_construct w c h hc.1 hc.2
  | admission c fuel =>
    simp only [World.step] at hs
    split at hs
    · rename_i hc
      cases hr : run_client w.server c fuel with
      | none => simp [hr] at hs
      | some s1 =>
        simp only [hr] at hs
        have e := Option.some.inj hs
        subst e
        exact inv_admission w c fuel s1 h hc hr
    · exact Option.noConfusion hs
  | cleanup c =>
    simp only [World.step] at hs
    split at hs
    · rename_i hc
      cases hr : thread_cleanup w.server c with
      | none => simp [hr] at hs
      | some s1 =>
        simp only [hr] at hs
        have e := Option.some.inj hs
        subst e
        exact inv_cleanup w c s1 h hc hr
    · exact Option.noConfusion hs
  | stop =>
    simp only [World.step] at hs
    have e := Option.some.inj hs
    subst e
    exact h
  | resume =>
    simp only [World.step] at hs
    have e := Option.some.inj hs
    subst e
    exact h

theorem inv_exec (as : List Action) : ∀ (w w1 : World), w.Inv → w.exec as = some w1 →
    w1.Inv := by
  induction as with
  | nil =>
    intro w w1 h hs
    simp only [World.exec] at hs
    have e := Option.some.inj hs
    subst e
    exact h
  | cons a as ih =>
    intro w w1 h hs
    simp only [World.exec] at hs
    cases hw : w.step a with
    | none => simp [hw] at hs
    | some w2 =>
      simp only [hw] at hs
      exact ih w2 w1 (inv_step w w2 a h hw) hs

/-- C11: in every state reached from the initial state by steps of `client_constructor`,
`run_client` admission, `thread_cleanup` and the supervisor's writes of `server_stopped`, the
count `num_client_threads` is not negative and not less than the number of clients in the list
reached from `thread_list_head`; so when the count is 0 the list is empty. -/
theorem count_bounds_registry (as : List Action) (w : World)
    (h : World.init.exec as = some w) :
    0 ≤ w.server.num_client_threads
      ∧ ∃ L, chain w.server.client w.server.thread_list_head L
        ∧ (L.length : Int) ≤ w.server.num_client_threads
        ∧ (w.server.num_client_threads = 0 → L = [] ∧ w.server.thread_list_head = none) := by
  obtain ⟨L, hd, _, _, _, hk⟩ := inv_exec as World.init w inv_init h
  refine ⟨by rw [hk]; omega, L, (chain_of_dchain _ L _ _ hd).1, by rw [hk]; omega, ?_⟩
  intro h0
  have hl : L = [] := by
    apply List.length_eq_zero.1
    rw [hk] at h0
    omega
  subst hl
  exact ⟨rfl, hd⟩

theorem sample_run_returns : (World.init.exec sample_run).isSome = true := by
  decide

theorem count_bounds_registry_witness :
    ∃ w, World.init.exec sample_run = some w
      ∧ 0 ≤ w.server.num_client_threads
      ∧ ∃ L, chain w.server.client w.server.thread_list_head L
        ∧ (L.length : Int) ≤ w.server.num_client_threads
        ∧ (w.server.num_client_threads = 0 → L = [] ∧ w.server.thread_list_head = none) :=
  match h : World.init.exec sample_run, sample_run_returns with
  | some w, _ => ⟨w, rfl, count_bounds_registry sample_run w h⟩

/-! ### the strings `db_add` receives and stores -/

end ConcurrentDB
